import Mathlib

set_option maxRecDepth 8000
set_option maxHeartbeats 1000000

/-!
Shallow embedding of `network_converter.py`: the table-extraction engine
(`_maybe_drop_proto_label`, `_csv_parse`, `detect_header_and_rows`,
`to_dataframe`, the pruning part of `parse_file`) and the ranking engine
(the preprocessing and augmentation phases of `write_sheets_to_excel`).
Python strings are Lean `String`s, Python floats are modelled exactly by `ℚ`,
and `pandas` missing values (`NaN` / `NA`) are a dedicated constructor.
`csv.Sniffer` is an external library call and is modelled as an arbitrary
function parameter `sniff`; every theorem quantifies over it.
-/

namespace NetworkConvert

/-- Python whitespace test, as used by `str.strip()` (ASCII fragment). -/
def isPySpace (c : Char) : Bool :=
  c = ' ' || c = '\t' || c = '\n' || c = '\r' || c = '\x0b' || c = '\x0c'

/-- Test for the characters stripped by `str.strip("\r\n")`. -/
def isRN (c : Char) : Bool := c = '\r' || c = '\n'

/-- Drop the longest prefix of characters satisfying `p`. -/
def ltrimBy (p : Char → Bool) (l : List Char) : List Char := l.dropWhile p

/-- Drop the longest suffix of characters satisfying `p`. -/
def rtrimBy (p : Char → Bool) (l : List Char) : List Char :=
  (l.reverse.dropWhile p).reverse

/-- Python `str.strip()` on the character list. -/
def pyStripL (l : List Char) : List Char := ltrimBy isPySpace (rtrimBy isPySpace l)

/-- Python `str.strip()`. -/
def pyStrip (s : String) : String := ⟨pyStripL s.data⟩

/-- Python `str.rstrip("\r\n")`. -/
def rstripRN (s : String) : String := ⟨rtrimBy isRN s.data⟩

/-- Python `str.strip("\r\n")`. -/
def stripRN (s : String) : String := ⟨ltrimBy isRN (rtrimBy isRN s.data)⟩

/-- A line is blank when `ln.strip()` is empty (Python falsiness of a string). -/
def isBlank (s : String) : Bool := pyStrip s = ""

/-- Membership in the character class `[a-z0-9]`. -/
def isLowerAlnum (c : Char) : Bool :=
  ('a' ≤ c && c ≤ 'z') || ('0' ≤ c && c ≤ '9')

/-- `NORMALIZE` from the source: `re.sub(r"[^a-z0-9]+", "", s.strip().lower())`. -/
def pyNormalize (s : String) : String :=
  ⟨((pyStripL s.data).map Char.toLower).filter isLowerAlnum⟩

/-- `PROTO_NAMES` from the source. -/
def protoNames : List String := ["ethernet", "ipv4", "ipv6", "tcp", "udp"]

/-- `GEO_DROP_COLS` from the source. -/
def geoDropCols : List String :=
  ["Country", "City", "Latitude", "Longitude", "AS Number", "AS Organization"]

/-- `NUMERIC_COLS` from `to_dataframe`. -/
def numericCols : List String :=
  ["packets", "bytes", "txpackets", "txbytes", "rxpackets", "rxbytes",
   "port", "latitude", "longitude", "asnumber"]

/-- The candidate delimiters `",\t;|"` offered to the sniffer and counted
by the fallback heuristic. -/
def candDelims : List Char := [',', '\t', ';', '|']

/-- `_maybe_drop_proto_label` from the source: trim trailing newlines, drop
leading blank lines, and drop a first line that normalizes to a protocol
name and contains neither a comma nor a tab. -/
def maybeDropProtoLabel (lines : List String) : List String :=
  let clean := (lines.map rstripRN).dropWhile (fun ln => isBlank ln)
  match clean with
  | [] => []
  | x :: rest =>
    if decide (pyNormalize x ∈ protoNames) && !(x.data.contains ',')
        && !(x.data.contains '\t') then rest
    else x :: rest

/-- The non-blank content lines used by `_csv_parse`. -/
def nonemptyOf (lines : List String) : List String :=
  (maybeDropProtoLabel lines).filter (fun ln => !(isBlank ln))

/-- The sniffing sample: the first at most 50 non-blank lines, joined. -/
def sampleOf (lines : List String) : String :=
  String.intercalate "\n" ((nonemptyOf lines).take 50)

/-- `sample.count(c)` for a single character. -/
def countChar (s : String) (c : Char) : ℕ := s.data.count c

/-- Left fold that keeps the first element attaining the maximal value of
`f` (Python `max(..., key=...)` keeps the first maximum). -/
def pickMaxC (f : Char → ℕ) (b : Char) (xs : List Char) : Char :=
  xs.foldl (fun r a => if f r < f a then a else r) b

/-- The frequency heuristic of `_csv_parse`: the candidate delimiter with the
highest count in the sample (first wins on ties), or a comma when every
count is zero. -/
def fallbackDelim (sample : String) : Char :=
  if candDelims.all (fun c => countChar sample c = 0) then ','
  else pickMaxC (fun c => countChar sample c) ',' ['\t', ';', '|']

/-- Delimiter choice of `_csv_parse`: the sniffer's answer when it succeeds,
otherwise the frequency heuristic. -/
def chooseDelim (sniff : String → Option Char) (lines : List String) : Char :=
  match sniff (sampleOf lines) with
  | some d => d
  | none => fallbackDelim (sampleOf lines)

/-- One step of the `csv.reader` field scanner for a single record.
Quoting follows the default dialect on one line: a quote opening at the
start of a field starts a quoted section, a doubled quote inside it is an
escaped quote, and the delimiter is only special outside quotes. -/
def splitCSVAux (delim : Char) : ℕ → Bool → List Char → List Char → List (List Char)
  | _, _, cur, [] => [cur.reverse]
  | 0, _, cur, cs => [cur.reverse ++ cs]
  | f + 1, inQ, cur, c :: rest =>
    if inQ then
      if c = '"' then
        match rest with
        | '"' :: rest2 => splitCSVAux delim f true ('"' :: cur) rest2
        | _ => splitCSVAux delim f false cur rest
      else splitCSVAux delim f true (c :: cur) rest
    else
      if c = delim then cur.reverse :: splitCSVAux delim f false [] rest
      else if c = '"' && cur.isEmpty then splitCSVAux delim f true cur rest
      else splitCSVAux delim f false (c :: cur) rest

/-- Split one line into `csv` fields for the chosen delimiter. -/
def splitCSVLine (delim : Char) (s : String) : List String :=
  (splitCSVAux delim s.data.length false [] s.data).map (fun l => ⟨l⟩)

/-- Python `str.lstrip("﻿")`: drop leading byte-order marks. -/
def lstripBOM (s : String) : String := ⟨s.data.dropWhile (fun c => c = '﻿')⟩

/-- Header post-processing of `_csv_parse`: BOM-strip the first field, then
strip whitespace from every field. -/
def processHeader : List String → List String
  | [] => []
  | h0 :: hs => (pyStrip (lstripBOM h0)) :: hs.map pyStrip

/-- Row post-processing of `_csv_parse`: pad with empty strings or truncate
to the header's field count, then strip every field. -/
def processRow (hdr : List String) (row : List String) : List String :=
  let n := hdr.length
  let row2 :=
    if row.length < n then row ++ List.replicate (n - row.length) ""
    else if n < row.length then row.take n
    else row
  row2.map pyStrip

/-- `_csv_parse` from the source: returns `(header, rows, delimiter)`. -/
def csvParse (sniff : String → Option Char) (lines : List String) :
    List String × List (List String) × Char :=
  let nonempty := nonemptyOf lines
  if nonempty.isEmpty then ([], [], ',')
  else
    let delim := chooseDelim sniff lines
    match nonempty.map (splitCSVLine delim) with
    | [] => ([], [], delim)
    | rawHdr :: rest =>
      let hdr := processHeader rawHdr
      (hdr, rest.map (processRow hdr), delim)

/-- Scanner for `re.split(r"\s{2,}|\t", s)`: a run of two or more whitespace
characters, or a single tab, separates tokens. Fueled by the input length
so the recursion is structural. -/
def splitWSAux : ℕ → List Char → List Char → List (List Char)
  | _, cur, [] => [cur.reverse]
  | 0, cur, cs => [cur.reverse ++ cs]
  | f + 1, cur, c :: rest =>
    if isPySpace c then
      match rest with
      | c2 :: _ =>
        if isPySpace c2 then cur.reverse :: splitWSAux f [] (rest.dropWhile isPySpace)
        else if c = '\t' then cur.reverse :: splitWSAux f [] rest
        else splitWSAux f (c :: cur) rest
      | [] =>
        if c = '\t' then cur.reverse :: splitWSAux f [] []
        else splitWSAux f (c :: cur) []
    else splitWSAux f (c :: cur) rest

/-- `re.split(r"\s{2,}|\t", s)` as used by the fallback tokenizer. -/
def splitWS (s : String) : List String :=
  (splitWSAux s.data.length [] s.data).map (fun l => ⟨l⟩)

/-- `detect_header_and_rows` from the source. The outer `Option` is `none`
exactly when the Python code raises (`clean[0]` on an empty list after the
fallback drops a protocol-label line); the inner `Option (List String)` is
the header (`None` in Python when absent). -/
def detectHeaderAndRows (sniff : String → Option Char) (lines : List String) :
    Option (Option (List String) × List (List String)) :=
  let res := csvParse sniff lines
  if res.1.isEmpty then
    let clean := (lines.filter (fun ln => !(isBlank ln))).map stripRN
    match clean with
    | [] => some (none, [])
    | c0 :: crest =>
      let clean2 := if decide (pyNormalize c0 ∈ protoNames) then crest else c0 :: crest
      match clean2 with
      | [] => none
      | d0 :: drest =>
        let parts0 := splitWS (pyStrip d0)
        if 3 ≤ parts0.length then
          some (some (parts0.map pyStrip), drest.map (fun ln => splitWS (pyStrip ln)))
        else some (none, clean2.map (fun x => [x]))
  else some (some res.1, res.2.1)

/-- A spreadsheet cell value after normalization: a free string, an exact
number, or a missing marker (`NaN`/`NA`). -/
inductive Value where
  | vStr : String → Value
  | vNum : ℚ → Value
  | vNA : Value
deriving DecidableEq, Repr

/-- A parsed table: ordered column names and ordered rows of cells. -/
structure DataTable where
  cols : List String
  rows : List (List Value)
deriving DecidableEq, Repr

/-- Digits of a numeral folded into a natural number. -/
def natOfDigits (l : List Char) : ℕ :=
  l.foldl (fun a c => a * 10 + (c.toNat - '0'.toNat)) 0

/-- Parse an optional trailing exponent part (`e`/`E`, optional sign,
at least one digit, nothing after). -/
def parseExpPart (base : ℚ) : List Char → Option ℚ
  | [] => some base
  | e :: rest =>
    if e = 'e' || e = 'E' then
      let (sgnNeg, rest2) :=
        match rest with
        | '+' :: r => (false, r)
        | '-' :: r => (true, r)
        | r => (false, r)
      let ds := rest2.takeWhile Char.isDigit
      let rest3 := rest2.dropWhile Char.isDigit
      if ds.isEmpty || !rest3.isEmpty then none
      else if sgnNeg then some (base / (10 : ℚ) ^ natOfDigits ds)
      else some (base * (10 : ℚ) ^ natOfDigits ds)
    else none

/-- Parse an unsigned decimal numeral with optional fraction and exponent. -/
def parseUnsigned (l : List Char) : Option ℚ :=
  let ip := l.takeWhile Char.isDigit
  let rest := l.dropWhile Char.isDigit
  match rest with
  | [] => if ip.isEmpty then none else some (natOfDigits ip : ℚ)
  | '.' :: rest2 =>
    let fp := rest2.takeWhile Char.isDigit
    let rest3 := rest2.dropWhile Char.isDigit
    if ip.isEmpty && fp.isEmpty then none
    else
      parseExpPart ((natOfDigits ip : ℚ) + (natOfDigits fp : ℚ) / (10 : ℚ) ^ fp.length) rest3
  | c :: _ =>
    if (c = 'e' || c = 'E') && !ip.isEmpty then parseExpPart (natOfDigits ip : ℚ) rest
    else none

/-- Model of `pd.to_numeric` on one string (and of Python `float(s)`):
surrounding whitespace is ignored, an optional sign precedes a decimal
numeral with optional fraction and exponent; anything else fails. -/
def parseNum (s : String) : Option ℚ :=
  match pyStripL s.data with
  | '+' :: rest => parseUnsigned rest
  | '-' :: rest => (parseUnsigned rest).map (fun q => -q)
  | l => parseUnsigned l

/-- Is this column name one of the recognized numeric-semantic names? -/
def isNumericName (c : String) : Bool := decide (pyNormalize c ∈ numericCols)

/-- Numeric coercion of one cell:
`pd.to_numeric(col.replace({"": pd.NA}), errors="coerce")` applied pointwise.
The empty string becomes missing; a string that fails numeric conversion
becomes missing; numbers and missing markers are unchanged. -/
def coerceCell : Value → Value
  | .vStr s =>
    if s = "" then .vNA
    else
      match parseNum s with
      | some q => .vNum q
      | none => .vNA
  | .vNum q => .vNum q
  | .vNA => .vNA

/-- Apply numeric coercion to the cells of the recognized numeric columns. -/
def coerceRow : List String → List Value → List Value
  | _, [] => []
  | [], _ :: _ => []
  | c :: cs, v :: vs =>
    (if isNumericName c then coerceCell v else v) :: coerceRow cs vs

/-- Fields become strings; positions past the row's end (pandas row padding)
become missing markers. -/
def padRowNA (r : List String) (n : ℕ) : List Value :=
  r.map Value.vStr ++ List.replicate (n - r.length) Value.vNA

/-- `pd.DataFrame(rows, columns=cols)` followed by the numeric-coercion loop
of `to_dataframe`. A row with more fields than columns raises in pandas,
modelled by `none`. -/
def mkDf (cols : List String) (rows : List (List String)) : Option DataTable :=
  if rows.all (fun r => r.length ≤ cols.length) then
    some ⟨cols, rows.map (fun r => coerceRow cols (padRowNA r cols.length))⟩
  else none

/-- Widest row, `max((len(r) for r in rows))`. -/
def maxWidth (rows : List (List String)) : ℕ :=
  rows.foldl (fun m r => max m r.length) 0

/-- Generic column names `Col1, Col2, ...` used when no header exists. -/
def defaultCols (w : ℕ) : List String :=
  (List.range w).map (fun i => "Col" ++ toString (i + 1))

/-- The no-header branch of `to_dataframe` (with `expected_cols=None`, as in
`parse_file`). -/
def toDataframeNoHeader (rows : List (List String)) : Option DataTable :=
  if rows.isEmpty then some ⟨[], []⟩
  else mkDf (defaultCols (maxWidth rows)) rows

/-- `to_dataframe` from the source (`expected_cols=None`). -/
def toDataframe (header? : Option (List String)) (rows : List (List String)) :
    Option DataTable :=
  match header? with
  | some h => if h.isEmpty then toDataframeNoHeader rows else mkDf h rows
  | none => toDataframeNoHeader rows

/-- The geo/ASN column drop of `parse_file` for IPv4/IPv6 sheets, and the
port drop for TCP/UDP sheets, act by selecting the non-dropped columns in
order; each row keeps exactly the cells of the kept columns. -/
def dropColsBy (p : String → Bool) (df : DataTable) : DataTable :=
  ⟨df.cols.filter (fun c => !(p c)),
   df.rows.map (fun r => ((df.cols.zip r).filter (fun cv => !(p cv.1))).map (fun cv => cv.2))⟩

/-- The IPv4/IPv6 branch of `parse_file`: compute the geo/ASN columns that
are present; when any exist, keep only the other columns. -/
def geoPrune (df : DataTable) : DataTable :=
  let dropList := geoDropCols.filter (fun c => decide (c ∈ df.cols))
  if dropList.isEmpty then df else dropColsBy (fun c => decide (c ∈ dropList)) df

/-- The TCP/UDP branch of `parse_file`: columns whose normalized name is
"port" are dropped when any are present. -/
def portPrune (df : DataTable) : DataTable :=
  let portCols := df.cols.filter (fun c => pyNormalize c = "port")
  if portCols.isEmpty then df else dropColsBy (fun c => decide (c ∈ portCols)) df

/-- The protocol-specific pruning of `parse_file` (lines 201-211), as a
function of the detected protocol name. -/
def protoPrune (proto : String) (df : DataTable) : DataTable :=
  let df1 := if proto = "IPv4" ∨ proto = "IPv6" then geoPrune df else df
  if proto = "TCP" ∨ proto = "UDP" then portPrune df1 else df1

/-- First column whose normalized name is "packets" or "packet" (the volume
column lookup of `write_sheets_to_excel`). -/
def findPktIdx (cols : List String) : Option ℕ :=
  cols.findIdx? (fun c => pyNormalize c = "packets" || pyNormalize c = "packet")

/-- `pd.to_numeric(col, errors="coerce").fillna(0)` on one cell. -/
def cellToNum : Value → ℚ
  | .vNum q => q
  | .vNA => 0
  | .vStr s => (parseNum s).getD 0

/-- Volume of one row: the numeric value of its cell in column `i`. -/
def volAt (i : ℕ) (r : List Value) : ℚ := cellToNum (r.getD i (Value.vStr ""))

/-- The volume column of a table as a list of numbers. -/
def volumesOf (df : DataTable) (i : ℕ) : List ℚ := df.rows.map (volAt i)

/-- `total = float(s.sum())` (an empty column sums to 0). -/
def totalOf (df : DataTable) (i : ℕ) : ℚ := (volumesOf df i).sum

/-- Per-row share: `value / total * 100`. -/
def pctOf (total v : ℚ) : ℚ := v / total * 100

/-- Pair every element with its position, starting at `n`. -/
def enumFrom {α : Type} : ℕ → List α → List (ℕ × α)
  | _, [] => []
  | n, a :: as => (n, a) :: enumFrom (n + 1) as

/-- A row decorated with its original index and its share. -/
abbrev RItem : Type := ℕ × ℚ × List Value

/-- Order for the stable descending sort on shares (`kind="mergesort"` in
`sort_values`): larger share first, ties by original row order. Because the
decorating indices are distinct, the stable mergesort of pandas produces
exactly the sort by this order. -/
def itemRel (p q : RItem) : Prop :=
  q.2.1 < p.2.1 ∨ (p.2.1 = q.2.1 ∧ p.1 ≤ q.1)

instance : DecidableRel itemRel := fun p q => by
  unfold itemRel; exact inferInstance

instance : IsTotal RItem itemRel := by
  constructor
  intro a b
  rcases lt_trichotomy a.2.1 b.2.1 with h | h | h
  · exact Or.inr (Or.inl h)
  · rcases Nat.le_total a.1 b.1 with h2 | h2
    · exact Or.inl (Or.inr ⟨h, h2⟩)
    · exact Or.inr (Or.inr ⟨h.symm, h2⟩)
  · exact Or.inl (Or.inl h)

instance : IsTrans RItem itemRel := by
  constructor
  intro a b c hab hbc
  rcases hab with h1 | ⟨e1, i1⟩
  · rcases hbc with h2 | ⟨e2, _⟩
    · exact Or.inl (h2.trans h1)
    · exact Or.inl (e2 ▸ h1)
  · rcases hbc with h2 | ⟨e2, i2⟩
    · exact Or.inl (e1 ▸ h2)
    · exact Or.inr ⟨e1.trans e2, i1.trans i2⟩

/-- Descending order on rationals, for the sort of the share series. -/
def descRel (a b : ℚ) : Prop := b ≤ a

instance : DecidableRel descRel := fun a b => by
  unfold descRel; exact inferInstance

instance : IsTotal ℚ descRel := by
  constructor; intro a b; exact (le_total b a).imp id id

instance : IsTrans ℚ descRel := by
  constructor; intro a b c hab hbc; exact le_trans hbc hab

/-- The decorated rows handed to the stable sort. -/
def rankItems (df : DataTable) (i : ℕ) : List RItem :=
  (enumFrom 0 df.rows).map (fun p => (p.1, pctOf (totalOf df i) (volAt i p.2), p.2))

/-- `df.sort_values("__pct_tmp__", ascending=False, kind="mergesort")`. -/
def sortedItems (df : DataTable) (i : ℕ) : List RItem :=
  List.insertionSort itemRel (rankItems df i)

/-- The reordered rows of the ranked table. -/
def sortedRowsOf (df : DataTable) (i : ℕ) : List (List Value) :=
  (sortedItems df i).map (fun p => p.2.2)

/-- `pct.sort_values(ascending=False)`: the share values in descending
order. -/
def pctSortedOf (df : DataTable) (i : ℕ) : List ℚ :=
  List.insertionSort descRel ((volumesOf df i).map (pctOf (totalOf df i)))

/-- Running sums, `Series.cumsum`. -/
def cumsumFrom (acc : ℚ) : List ℚ → List ℚ
  | [] => []
  | x :: xs => (acc + x) :: cumsumFrom (acc + x) xs

/-- `cumsum` of a list of rationals. -/
def cumsum (l : List ℚ) : List ℚ := cumsumFrom 0 l

/-- The cumulative shares in descending-share order. -/
def cumsOf (df : DataTable) (i : ℕ) : List ℚ := cumsum (pctSortedOf df i)

/-- Absolute value, written so it evaluates by cases. -/
def qabs (x : ℚ) : ℚ := if x < 0 then -x else x

/-- Membership in the closed band `[78, 90]` as a boolean. -/
def inBandB (x : ℚ) : Bool := decide (78 ≤ x) && decide (x ≤ 90)

/-- Left fold keeping the first index attaining the minimal value of `f`
(`Series.idxmin` returns the first row label with the minimal value). -/
def pickMinQ (f : ℕ → ℚ) (b : ℕ) (xs : List ℕ) : ℕ :=
  xs.foldl (fun r a => if f a < f r then a else r) b

/-- First-minimum selection over a list of candidate indices. -/
def argminFirst (f : ℕ → ℚ) : List ℕ → ℕ
  | [] => 0
  | x :: xs => pickMinQ f x xs

/-- Cutoff index selection of `write_sheets_to_excel`: among the positions
whose cumulative share lies in `[78, 90]` take the first one minimizing the
distance to 80; when the band is empty take the first global minimizer. -/
def selectIdx (cums : List ℚ) : ℕ :=
  let f := fun j => qabs (cums.getD j 0 - 80)
  let band := (List.range cums.length).filter (fun j => inBandB (cums.getD j 0))
  if band.isEmpty then argminFirst f (List.range cums.length) else argminFirst f band

/-- `cutoff_row_index` for a ranked table. -/
def cutIdxOf (df : DataTable) (i : ℕ) : ℕ := selectIdx (cumsOf df i)

/-- Floor of a rational, computed directly from its fraction. -/
def qfloor (x : ℚ) : ℤ := x.num.fdiv x.den

/-- Round to the nearest integer, halves to even (Python `round`). -/
def roundHalfEven (x : ℚ) : ℤ :=
  let n := qfloor x
  let f := x - (n : ℚ)
  if f < 1 / 2 then n
  else if 1 / 2 < f then n + 1
  else if n % 2 = 0 then n else n + 1

/-- `round(x, 2)`: round to two decimal places. -/
def pyRound2 (x : ℚ) : ℚ := (roundHalfEven (x * 100) : ℚ) / 100

/-- `cutoff_cumulative_percentage` for a ranked table. -/
def cutValOf (df : DataTable) (i : ℕ) : ℚ :=
  pyRound2 ((cumsOf df i).getD (cutIdxOf df i) 0)

/-- The preprocessing loop of `write_sheets_to_excel` (lines 241-274) for
one sheet: locate the volume column; on a missing column or a nonpositive
total, pass the table through unranked with no cutoff; otherwise sort rows
by descending share and compute the Pareto cutoff. -/
def prepSheet (df : DataTable) : DataTable × Option ℚ × Option ℕ :=
  match findPktIdx df.cols with
  | none => (df, none, none)
  | some i =>
    if totalOf df i ≤ 0 then (df, none, none)
    else (⟨df.cols, sortedRowsOf df i⟩, some (cutValOf df i), some (cutIdxOf df i))

/-- `openpyxl.utils.get_column_letter`, fueled. -/
def gclAux : ℕ → ℕ → List Char
  | 0, _ => []
  | _ + 1, 0 => []
  | fuel + 1, n + 1 => gclAux fuel (n / 26) ++ [Char.ofNat ('A'.toNat + n % 26)]

/-- Column letter for a 1-based column index. -/
def gcl (n : ℕ) : String := ⟨gclAux n n⟩

/-- What the augmentation phase of `write_sheets_to_excel` (lines 289-350)
hands to the worksheet for one ranked sheet: the three appended column
headers, the per-row formula strings, the contents of the "Top 20 %"
column per data row, and the data row flagged for highlighting. -/
structure Directives where
  totalHeader : String
  pctHeader : String
  top20Header : String
  totalFormula : String
  pctFormulas : List String
  top20Cells : List (Option ℚ)
  highlightDataIdx : Option ℕ
deriving DecidableEq, Repr

/-- The augmentation phase for one sheet. `none` models the skip branch
taken when no packets column is found in the written header row; otherwise
the derived-column directives are produced. The cutoff value is written
only at data row 0, and row `best_idx` is highlighted. -/
def augmentSheet (t : DataTable) (bestSum : Option ℚ) (bestIdx : Option ℕ) :
    Option Directives :=
  match findPktIdx t.cols with
  | none => none
  | some k =>
    let maxRow := t.rows.length + 1
    let pktL := gcl (k + 1)
    let totalL := gcl (t.cols.length + 1)
    some
      { totalHeader := "Total Packets"
        pctHeader := "Total Packets in 100% (B/D *100)"
        top20Header := "Top 20 %"
        totalFormula := "=SUM($" ++ pktL ++ "$2:$" ++ pktL ++ "$" ++ toString maxRow ++ ")"
        pctFormulas := (List.range t.rows.length).map (fun j =>
          "=(" ++ pktL ++ toString (j + 2) ++ "/" ++ totalL ++ toString (j + 2) ++ ")*100")
        top20Cells := (List.range t.rows.length).map (fun j =>
          if j = 0 then bestSum else none)
        highlightDataIdx := bestIdx }

/-- A cell holds a number or a missing marker (never free text). -/
def isNumNA (v : Value) : Prop := (∃ q, v = Value.vNum q) ∨ v = Value.vNA

/-! ## Helper lemmas -/

theorem geoPrune_not_mem (df : DataTable) :
    ∀ c ∈ geoDropCols, c ∉ (geoPrune df).cols := by
  intro c hc hmem
  unfold geoPrune at hmem
  by_cases hdl : (geoDropCols.filter (fun c => decide (c ∈ df.cols))).isEmpty
  · rw [if_pos hdl] at hmem
    rw [List.isEmpty_iff, List.filter_eq_nil_iff] at hdl
    exact hdl c hc (by simpa using hmem)
  · rw [if_neg hdl] at hmem
    have h2 := (List.mem_filter.mp hmem).2
    simp only [Bool.not_eq_eq_eq_not, Bool.not_true, decide_eq_false_iff_not] at h2
    exact h2 (List.mem_filter.mpr ⟨hc, by
      simpa using (List.mem_filter.mp hmem).1⟩)

theorem geoPrune_sublist (df : DataTable) : (geoPrune df).cols.Sublist df.cols := by
  unfold geoPrune
  by_cases hdl : (geoDropCols.filter (fun c => decide (c ∈ df.cols))).isEmpty
  · rw [if_pos hdl]
  · rw [if_neg hdl]; exact List.filter_sublist df.cols

theorem geoPrune_mem_of (df : DataTable) :
    ∀ c ∈ df.cols, c ∉ geoDropCols → c ∈ (geoPrune df).cols := by
  intro c hc hnc
  unfold geoPrune
  by_cases hdl : (geoDropCols.filter (fun c => decide (c ∈ df.cols))).isEmpty
  · rw [if_pos hdl]; exact hc
  · rw [if_neg hdl]
    refine List.mem_filter.mpr ⟨hc, ?_⟩
    simp only [Bool.not_eq_eq_eq_not, Bool.not_true, decide_eq_false_iff_not]
    intro hmem
    exact hnc (List.mem_filter.mp hmem).1

theorem geoPrune_rows_unchanged_of_empty (df : DataTable)
    (h : (geoDropCols.filter (fun c => decide (c ∈ df.cols))).isEmpty) :
    geoPrune df = df := by
  unfold geoPrune; rw [if_pos h]

theorem geoPrune_idem (df : DataTable) : geoPrune (geoPrune df) = geoPrune df := by
  apply geoPrune_rows_unchanged_of_empty
  rw [List.isEmpty_iff, List.filter_eq_nil_iff]
  intro c hc
  simp only [decide_eq_true_eq]
  exact geoPrune_not_mem df c hc

theorem portPrune_not_port (df : DataTable) :
    ∀ c ∈ (portPrune df).cols, ¬ pyNormalize c = "port" := by
  intro c hmem hport
  unfold portPrune at hmem
  by_cases hdl : (df.cols.filter (fun c => pyNormalize c = "port")).isEmpty
  · rw [if_pos hdl] at hmem
    rw [List.isEmpty_iff, List.filter_eq_nil_iff] at hdl
    exact hdl c hmem (by simpa using hport)
  · rw [if_neg hdl] at hmem
    have h2 := (List.mem_filter.mp hmem).2
    simp only [Bool.not_eq_eq_eq_not, Bool.not_true, decide_eq_false_iff_not] at h2
    exact h2 (List.mem_filter.mpr ⟨(List.mem_filter.mp hmem).1, by simpa using hport⟩)

theorem portPrune_sublist (df : DataTable) : (portPrune df).cols.Sublist df.cols := by
  unfold portPrune
  by_cases hdl : (df.cols.filter (fun c => pyNormalize c = "port")).isEmpty
  · rw [if_pos hdl]
  · rw [if_neg hdl]; exact List.filter_sublist df.cols

theorem portPrune_mem_of (df : DataTable) :
    ∀ c ∈ df.cols, ¬ pyNormalize c = "port" → c ∈ (portPrune df).cols := by
  intro c hc hnp
  unfold portPrune
  by_cases hdl : (df.cols.filter (fun c => pyNormalize c = "port")).isEmpty
  · rw [if_pos hdl]; exact hc
  · rw [if_neg hdl]
    refine List.mem_filter.mpr ⟨hc, ?_⟩
    simp only [Bool.not_eq_eq_eq_not, Bool.not_true, decide_eq_false_iff_not]
    intro hmem
    exact hnp (by simpa using (List.mem_filter.mp hmem).2)

theorem portPrune_eq_of_empty (df : DataTable)
    (h : (df.cols.filter (fun c => pyNormalize c = "port")).isEmpty) :
    portPrune df = df := by
  unfold portPrune; rw [if_pos h]

theorem portPrune_idem (df : DataTable) : portPrune (portPrune df) = portPrune df := by
  apply portPrune_eq_of_empty
  rw [List.isEmpty_iff, List.filter_eq_nil_iff]
  intro c hc
  simpa using portPrune_not_port df c hc

theorem protoPrune_geo_eq (proto : String) (df : DataTable)
    (h : proto = "IPv4" ∨ proto = "IPv6") : protoPrune proto df = geoPrune df := by
  have hnp : ¬ (proto = "TCP" ∨ proto = "UDP") := by
    rcases h with h | h <;> subst h <;> decide
  unfold protoPrune
  rw [if_pos h, if_neg hnp]

theorem protoPrune_port_eq (proto : String) (df : DataTable)
    (h : proto = "TCP" ∨ proto = "UDP") : protoPrune proto df = portPrune df := by
  have hng : ¬ (proto = "IPv4" ∨ proto = "IPv6") := by
    rcases h with h | h <;> subst h <;> decide
  unfold protoPrune
  rw [if_neg hng, if_pos h]

/-! ## Claim theorems -/

/-- C9: protocol-specific pruning is idempotent: applying the IPv4/IPv6
geo/ASN drop, or the TCP/UDP port drop, to an already-pruned table leaves
it unchanged (for any protocol label, a second `protoPrune` is the
identity on the result of the first). -/
theorem claim9_prune_idempotent (proto : String) (df : DataTable) :
    protoPrune proto (protoPrune proto df) = protoPrune proto df := by
  by_cases hg : proto = "IPv4" ∨ proto = "IPv6"
  · rw [protoPrune_geo_eq proto _ hg, protoPrune_geo_eq proto _ hg, geoPrune_idem]
  · by_cases hp : proto = "TCP" ∨ proto = "UDP"
    · rw [protoPrune_port_eq proto _ hp, protoPrune_port_eq proto _ hp, portPrune_idem]
    · unfold protoPrune
      rw [if_neg hg, if_neg hp, if_neg hg, if_neg hp]

/-- C8: for IPv4/IPv6 tables the six geo/ASN columns (exact, case-sensitive
names) are removed and all other columns are retained in order; for TCP/UDP
tables every column whose normalized name is "port" is removed and all other
columns are retained in order. -/
theorem claim8_proto_pruning (proto : String) (df : DataTable) :
    ((proto = "IPv4" ∨ proto = "IPv6") →
      (∀ c ∈ geoDropCols, c ∉ (protoPrune proto df).cols) ∧
      (protoPrune proto df).cols.Sublist df.cols ∧
      (∀ c ∈ df.cols, c ∉ geoDropCols → c ∈ (protoPrune proto df).cols)) ∧
    ((proto = "TCP" ∨ proto = "UDP") →
      (∀ c ∈ (protoPrune proto df).cols, ¬ pyNormalize c = "port") ∧
      (protoPrune proto df).cols.Sublist df.cols ∧
      (∀ c ∈ df.cols, ¬ pyNormalize c = "port" → c ∈ (protoPrune proto df).cols)) := by
  constructor
  · intro hg
    rw [protoPrune_geo_eq proto df hg]
    exact ⟨geoPrune_not_mem df, geoPrune_sublist df, geoPrune_mem_of df⟩
  · intro hp
    rw [protoPrune_port_eq proto df hp]
    exact ⟨portPrune_not_port df, portPrune_sublist df, portPrune_mem_of df⟩

/-- C8 witness: on an IPv4 table carrying the six geo/ASN columns, "Country"
is gone and "Address" is kept; on a TCP table, "Port" is gone. -/
theorem claim8_proto_pruning_witness :
    ("Country" ∉ (protoPrune "IPv4"
      ⟨["Address", "Packets", "Country", "City", "Latitude", "Longitude",
        "AS Number", "AS Organization"], []⟩).cols) ∧
    ("Address" ∈ (protoPrune "IPv4"
      ⟨["Address", "Packets", "Country", "City", "Latitude", "Longitude",
        "AS Number", "AS Organization"], []⟩).cols) ∧
    (∀ c ∈ (protoPrune "TCP" ⟨["Address", "Port", "Packets"], []⟩).cols,
      ¬ pyNormalize c = "port") := by
  refine ⟨?_, ?_, ?_⟩
  · exact ((claim8_proto_pruning "IPv4" _).1 (Or.inl rfl)).1 "Country" (by decide)
  · exact ((claim8_proto_pruning "IPv4" _).1 (Or.inl rfl)).2.2 "Address" (by decide) (by decide)
  · exact ((claim8_proto_pruning "TCP" _).2 (Or.inl rfl)).1

/-- C5: when the volume column is absent, or the total of the volume column
(missing treated as 0) is nonpositive — in particular for a table with zero
rows — the preprocessing passes the table through unchanged with no cutoff
(and, being a total function, without raising). -/
theorem claim5_unranked_passthrough :
    (∀ df : DataTable,
      (findPktIdx df.cols = none ∨
        ∃ i, findPktIdx df.cols = some i ∧ totalOf df i ≤ 0) →
      prepSheet df = (df, none, none)) ∧
    (∀ df : DataTable, df.rows = [] → prepSheet df = (df, none, none)) := by
  have key : ∀ df : DataTable,
      (findPktIdx df.cols = none ∨
        ∃ i, findPktIdx df.cols = some i ∧ totalOf df i ≤ 0) →
      prepSheet df = (df, none, none) := by
    intro df h
    rcases h with h | ⟨i, hi, htot⟩
    · unfold prepSheet; rw [h]
    · unfold prepSheet; rw [hi]; dsimp only; rw [if_pos htot]
  refine ⟨key, ?_⟩
  intro df h
  apply key
  cases hf : findPktIdx df.cols with
  | none => exact Or.inl rfl
  | some i =>
    refine Or.inr ⟨i, rfl, ?_⟩
    unfold totalOf volumesOf
    rw [h]
    simp

/-- C5 witness: a table with a Packets column and zero rows passes through
unranked, and so does a table with no volume column. -/
theorem claim5_unranked_passthrough_witness :
    prepSheet ⟨["Packets"], []⟩ = (⟨["Packets"], []⟩, none, none) ∧
    prepSheet ⟨["Address"], [[Value.vStr "a"]]⟩ =
      (⟨["Address"], [[Value.vStr "a"]]⟩, none, none) := by
  constructor
  · exact claim5_unranked_passthrough.2 ⟨["Packets"], []⟩ rfl
  · exact claim5_unranked_passthrough.1 ⟨["Address"], [[Value.vStr "a"]]⟩ (Or.inl (by decide))

theorem coerceCell_isNumNA (v : Value) : isNumNA (coerceCell v) := by
  cases v with
  | vStr s =>
    simp only [coerceCell]
    by_cases hs : s = ""
    · rw [if_pos hs]; exact Or.inr rfl
    · rw [if_neg hs]
      cases parseNum s with
      | some q => exact Or.inl ⟨q, rfl⟩
      | none => exact Or.inr rfl
  | vNum q => exact Or.inl ⟨q, rfl⟩
  | vNA => exact Or.inr rfl

theorem coerceRow_length (cs : List String) (vs : List Value) :
    (coerceRow cs vs).length = min cs.length vs.length := by
  induction cs generalizing vs with
  | nil => cases vs <;> simp [coerceRow]
  | cons c cs ih =>
    cases vs with
    | nil => simp [coerceRow]
    | cons v vs => simp [coerceRow, ih, Nat.succ_min_succ]

theorem coerceRow_getD_numNA (cs : List String) (vs : List Value) (i : ℕ)
    (h : isNumericName (cs.getD i "") = true) :
    isNumNA ((coerceRow cs vs).getD i Value.vNA) := by
  induction cs generalizing vs i with
  | nil =>
    cases vs with
    | nil => exact Or.inr rfl
    | cons v vs => exact Or.inr rfl
  | cons c cs ih =>
    cases vs with
    | nil => exact Or.inr rfl
    | cons v vs =>
      cases i with
      | zero =>
        rw [List.getD_cons_zero] at h
        simp only [coerceRow, List.getD_cons_zero]
        rw [if_pos h]
        exact coerceCell_isNumNA v
      | succ i =>
        simp only [List.getD_cons_succ] at h ⊢
        simp only [coerceRow, List.getD_cons_succ]
        exact ih vs i h

theorem padRowNA_length (r : List String) (n : ℕ) (h : r.length ≤ n) :
    (padRowNA r n).length = n := by
  unfold padRowNA
  simp only [List.length_append, List.length_map, List.length_replicate]
  omega

theorem mkDf_some (cols : List String) (rows : List (List String)) (df : DataTable)
    (h : mkDf cols rows = some df) :
    df.cols = cols ∧
    df.rows = rows.map (fun r => coerceRow cols (padRowNA r cols.length)) ∧
    ∀ r ∈ rows, r.length ≤ cols.length := by
  unfold mkDf at h
  by_cases hall : rows.all (fun r => r.length ≤ cols.length)
  · rw [if_pos hall] at h
    injection h with h
    subst h
    refine ⟨rfl, rfl, ?_⟩
    intro r hr
    have := List.all_eq_true.mp hall r hr
    simpa using this
  · rw [if_neg hall] at h
    exact Option.noConfusion h

theorem mkDf_props (cols : List String) (rows : List (List String)) (df : DataTable)
    (h : mkDf cols rows = some df) :
    (∀ r ∈ df.rows, r.length = df.cols.length) ∧
    (∀ r ∈ df.rows, ∀ i, isNumericName (df.cols.getD i "") = true →
      isNumNA (r.getD i Value.vNA)) := by
  obtain ⟨hcols, hrows, hle⟩ := mkDf_some cols rows df h
  constructor
  · intro r hr
    rw [hrows] at hr
    obtain ⟨r0, hr0, rfl⟩ := List.mem_map.mp hr
    rw [hcols, coerceRow_length, padRowNA_length r0 cols.length (hle r0 hr0)]
    simp
  · intro r hr i hnum
    rw [hrows] at hr
    obtain ⟨r0, hr0, rfl⟩ := List.mem_map.mp hr
    rw [hcols] at hnum
    exact coerceRow_getD_numNA cols (padRowNA r0 cols.length) i hnum

/-- C6: after `to_dataframe`, every cell of a column whose normalized name
is one of the ten recognized numeric names is a number or a missing marker,
never a raw string; the empty string maps to missing, and a string that
fails numeric conversion maps to missing instead of raising. -/
theorem claim6_numeric_coercion :
    (∀ (header? : Option (List String)) (rows : List (List String)) (df : DataTable),
      toDataframe header? rows = some df →
      (∀ r ∈ df.rows, r.length = df.cols.length) ∧
      (∀ r ∈ df.rows, ∀ i, isNumericName (df.cols.getD i "") = true →
        isNumNA (r.getD i Value.vNA))) ∧
    coerceCell (Value.vStr "") = Value.vNA ∧
    (∀ s, parseNum s = none → coerceCell (Value.vStr s) = Value.vNA) := by
  refine ⟨?_, by decide, ?_⟩
  · intro header? rows df h
    have hmk : df = (⟨[], []⟩ : DataTable) ∨ ∃ cols, mkDf cols rows = some df := by
      unfold toDataframe at h
      cases header? with
      | some hd =>
        dsimp only at h
        by_cases he : hd.isEmpty
        · rw [if_pos he] at h
          unfold toDataframeNoHeader at h
          by_cases hre : rows.isEmpty
          · rw [if_pos hre] at h; injection h with h; exact Or.inl h.symm
          · rw [if_neg hre] at h; exact Or.inr ⟨_, h⟩
        · rw [if_neg he] at h; exact Or.inr ⟨_, h⟩
      | none =>
        dsimp only at h
        unfold toDataframeNoHeader at h
        by_cases hre : rows.isEmpty
        · rw [if_pos hre] at h; injection h with h; exact Or.inl h.symm
        · rw [if_neg hre] at h; exact Or.inr ⟨_, h⟩
    rcases hmk with rfl | ⟨cols, hmk⟩
    · refine ⟨?_, ?_⟩
      · intro r hr; simp at hr
      · intro r hr; simp at hr
    · exact mkDf_props cols rows df hmk
  · intro s hp
    simp only [coerceCell]
    by_cases hs : s = ""
    · rw [if_pos hs]
    · rw [if_neg hs, hp]

/-- C6 witness: coercing a Packets column turns "5" into the number 5 and
both "x" (unparseable) and "" into missing markers. -/
theorem claim6_numeric_coercion_witness :
    toDataframe (some ["Packets"]) [["5"], ["x"], [""]] =
      some ⟨["Packets"], [[Value.vNum 5], [Value.vNA], [Value.vNA]]⟩ ∧
    isNumNA (([Value.vNA] : List Value).getD 0 Value.vNA) := by
  constructor
  · decide
  · exact (claim6_numeric_coercion.1 (some ["Packets"]) [["5"], ["x"], [""]]
      ⟨["Packets"], [[Value.vNum 5], [Value.vNA], [Value.vNA]]⟩ (by decide)).2
      [Value.vNA] (by decide) 0 (by decide)

theorem pickMaxC_spec (f : Char → ℕ) (xs : List Char) :
    ∀ b : Char,
    (pickMaxC f b xs = b ∨ pickMaxC f b xs ∈ xs) ∧
    f b ≤ f (pickMaxC f b xs) ∧ ∀ a ∈ xs, f a ≤ f (pickMaxC f b xs) := by
  induction xs with
  | nil =>
    intro b
    refine ⟨Or.inl rfl, le_refl _, ?_⟩
    intro a ha; exact absurd ha (List.not_mem_nil a)
  | cons a xs ih =>
    intro b
    by_cases hba : f b < f a
    · have hstep : pickMaxC f b (a :: xs) = pickMaxC f a xs := by
        unfold pickMaxC
        rw [List.foldl_cons, if_pos hba]
      obtain ⟨hmem, hb, hxs⟩ := ih a
      rw [hstep]
      refine ⟨?_, ?_, ?_⟩
      · rcases hmem with h | h
        · exact Or.inr (by rw [h]; exact List.mem_cons_self a xs)
        · exact Or.inr (List.mem_cons_of_mem a h)
      · exact le_trans (le_of_lt hba) hb
      · intro c hc
        rcases List.mem_cons.mp hc with rfl | hc
        · exact hb
        · exact hxs c hc
    · have hstep : pickMaxC f b (a :: xs) = pickMaxC f b xs := by
        unfold pickMaxC
        rw [List.foldl_cons, if_neg hba]
      obtain ⟨hmem, hb, hxs⟩ := ih b
      rw [hstep]
      refine ⟨?_, ?_, ?_⟩
      · rcases hmem with h | h
        · exact Or.inl h
        · exact Or.inr (List.mem_cons_of_mem a h)
      · exact hb
      · intro c hc
        rcases List.mem_cons.mp hc with rfl | hc
        · exact le_trans (le_of_not_lt hba) hb
        · exact hxs c hc

theorem fallbackDelim_spec (sample : String) :
    fallbackDelim sample ∈ candDelims ∧
    (∀ c ∈ candDelims, countChar sample c ≤ countChar sample (fallbackDelim sample)) ∧
    ((∀ c ∈ candDelims, countChar sample c = 0) → fallbackDelim sample = ',') ∧
    ((∃ c ∈ candDelims, 0 < countChar sample c) →
      0 < countChar sample (fallbackDelim sample)) := by
  unfold fallbackDelim
  by_cases hz : candDelims.all (fun c => countChar sample c = 0)
  · rw [if_pos hz]
    have hz' : ∀ c ∈ candDelims, countChar sample c = 0 := by
      intro c hc; simpa using List.all_eq_true.mp hz c hc
    refine ⟨by decide, ?_, fun _ => rfl, ?_⟩
    · intro c hc; rw [hz' c hc]; exact Nat.zero_le _
    · rintro ⟨c, hc, hpos⟩
      rw [hz' c hc] at hpos
      exact absurd hpos (lt_irrefl 0)
  · rw [if_neg hz]
    obtain ⟨hmem, hb, hxs⟩ := pickMaxC_spec (fun c => countChar sample c) ['\t', ';', '|'] ','
    have hbound : ∀ c ∈ candDelims,
        countChar sample c ≤ countChar sample (pickMaxC (fun c => countChar sample c) ',' ['\t', ';', '|']) := by
      intro c hc
      have : c = ',' ∨ c = '\t' ∨ c = ';' ∨ c = '|' := by simpa [candDelims] using hc
      rcases this with rfl | rfl | rfl | rfl
      · exact hb
      · exact hxs '\t' (by decide)
      · exact hxs ';' (by decide)
      · exact hxs '|' (by decide)
    refine ⟨?_, hbound, ?_, ?_⟩
    · rcases hmem with h | h
      · rw [h]; decide
      · exact List.mem_cons_of_mem ',' h
    · intro hall
      exact absurd (List.all_eq_true.mpr (fun c hc => by simp [hall c hc])) hz
    · rintro ⟨c, hc, hpos⟩
      exact lt_of_lt_of_le hpos (hbound c hc)

theorem csvParse_delim_eq (sniff : String → Option Char) (lines : List String)
    (h : nonemptyOf lines ≠ []) :
    (csvParse sniff lines).2.2 = chooseDelim sniff lines := by
  unfold csvParse
  cases hne : nonemptyOf lines with
  | nil => exact absurd hne h
  | cons n0 ntl =>
    simp only [List.isEmpty_cons, List.map_cons]
    rfl

/-- C7: delimiter detection works on the joined sample of the first at most
50 non-blank lines: a successful sniff among the four candidates wins;
otherwise the candidate with the highest occurrence count in the sample is
chosen (a comma when every count is zero), and lines beyond the first 50
cannot change the choice. -/
theorem claim7_delimiter_detection (sniff : String → Option Char) (lines : List String)
    (h : nonemptyOf lines ≠ []) :
    (∀ d, sniff (sampleOf lines) = some d → (csvParse sniff lines).2.2 = d) ∧
    (sniff (sampleOf lines) = none →
      (csvParse sniff lines).2.2 = fallbackDelim (sampleOf lines) ∧
      (csvParse sniff lines).2.2 ∈ candDelims ∧
      (∀ c ∈ candDelims,
        countChar (sampleOf lines) c ≤ countChar (sampleOf lines) ((csvParse sniff lines).2.2)) ∧
      ((∀ c ∈ candDelims, countChar (sampleOf lines) c = 0) →
        (csvParse sniff lines).2.2 = ',') ∧
      ((∃ c ∈ candDelims, 0 < countChar (sampleOf lines) c) →
        0 < countChar (sampleOf lines) ((csvParse sniff lines).2.2))) ∧
    (∀ lines2, nonemptyOf lines2 ≠ [] →
      (nonemptyOf lines).take 50 = (nonemptyOf lines2).take 50 →
      (csvParse sniff lines).2.2 = (csvParse sniff lines2).2.2) := by
  have hd := csvParse_delim_eq sniff lines h
  refine ⟨?_, ?_, ?_⟩
  · intro d hs
    rw [hd]; unfold chooseDelim; rw [hs]
  · intro hs
    have hfd : (csvParse sniff lines).2.2 = fallbackDelim (sampleOf lines) := by
      rw [hd]; unfold chooseDelim; rw [hs]
    obtain ⟨h1, h2, h3, h4⟩ := fallbackDelim_spec (sampleOf lines)
    rw [hfd]
    exact ⟨rfl, h1, h2, h3, h4⟩
  · intro lines2 h2 htake
    have hsample : sampleOf lines = sampleOf lines2 := by
      unfold sampleOf; rw [htake]
    rw [hd, csvParse_delim_eq sniff lines2 h2]
    unfold chooseDelim
    rw [hsample]

/-- C7 witness: with a failing sniffer on two semicolon-separated lines, the
heuristic picks the semicolon, a member of the candidate set with a
positive count. -/
theorem claim7_delimiter_detection_witness :
    (csvParse (fun _ => none) ["a;b", "c;d"]).2.2 ∈ candDelims ∧
    0 < countChar (sampleOf ["a;b", "c;d"]) ((csvParse (fun _ => none) ["a;b", "c;d"]).2.2) ∧
    (csvParse (fun _ => none) ["a;b", "c;d"]).2.2 = ';' := by
  have hc := claim7_delimiter_detection (fun _ => none) ["a;b", "c;d"] (by decide)
  obtain ⟨-, hfall, -⟩ := hc
  obtain ⟨-, hmem, -, -, hpos⟩ := hfall rfl
  exact ⟨hmem, hpos ⟨';', by decide, by decide⟩, by decide⟩

theorem cumsumFrom_length (acc : ℚ) (l : List ℚ) :
    (cumsumFrom acc l).length = l.length := by
  induction l generalizing acc with
  | nil => rfl
  | cons x xs ih => simp [cumsumFrom, ih]

theorem cumsum_length (l : List ℚ) : (cumsum l).length = l.length :=
  cumsumFrom_length 0 l

theorem cumsOf_length (df : DataTable) (k : ℕ) :
    (cumsOf df k).length = df.rows.length := by
  unfold cumsOf pctSortedOf volumesOf
  rw [cumsum_length, List.length_insertionSort, List.length_map, List.length_map]

theorem inBandB_iff (x : ℚ) : inBandB x = true ↔ (78 ≤ x ∧ x ≤ 90) := by
  simp [inBandB]

theorem pickMinQ_spec (f : ℕ → ℚ) (xs : List ℕ) :
    ∀ b : ℕ, xs.Pairwise (· < ·) → (∀ y ∈ xs, b < y) →
    (pickMinQ f b xs ∈ b :: xs) ∧
    (∀ y ∈ b :: xs, f (pickMinQ f b xs) ≤ f y) ∧
    (∀ y ∈ b :: xs, f y = f (pickMinQ f b xs) → pickMinQ f b xs ≤ y) := by
  induction xs with
  | nil =>
    intro b _ _
    refine ⟨List.mem_cons_self b [], ?_, ?_⟩
    · intro y hy
      rcases List.mem_cons.mp hy with rfl | hy
      · exact le_refl _
      · exact absurd hy (List.not_mem_nil y)
    · intro y hy _
      rcases List.mem_cons.mp hy with rfl | hy
      · exact le_refl _
      · exact absurd hy (List.not_mem_nil y)
  | cons a xs ih =>
    intro b hpw hby
    have hxs_pw : xs.Pairwise (· < ·) := (List.pairwise_cons.mp hpw).2
    have ha_lt : ∀ y ∈ xs, a < y := (List.pairwise_cons.mp hpw).1
    have hba : b < a := hby a (List.mem_cons_self a xs)
    have hbxs : ∀ y ∈ xs, b < y := fun y hy => hby y (List.mem_cons_of_mem a hy)
    by_cases hfa : f a < f b
    · have hstep : pickMinQ f b (a :: xs) = pickMinQ f a xs := by
        unfold pickMinQ
        rw [List.foldl_cons, if_pos hfa]
      obtain ⟨hmem, hbound, hfirst⟩ := ih a hxs_pw ha_lt
      rw [hstep]
      refine ⟨List.mem_cons_of_mem b hmem, ?_, ?_⟩
      · intro y hy
        rcases List.mem_cons.mp hy with rfl | hy
        · exact le_trans (hbound a (List.mem_cons_self a xs)) (le_of_lt hfa)
        · exact hbound y hy
      · intro y hy heq
        rcases List.mem_cons.mp hy with rfl | hy
        · have h1 : f (pickMinQ f a xs) ≤ f a := hbound a (List.mem_cons_self a xs)
          rw [← heq] at h1
          exact absurd (lt_of_le_of_lt h1 hfa) (lt_irrefl _)
        · exact hfirst y hy heq
    · have hstep : pickMinQ f b (a :: xs) = pickMinQ f b xs := by
        unfold pickMinQ
        rw [List.foldl_cons, if_neg hfa]
      obtain ⟨hmem, hbound, hfirst⟩ := ih b hxs_pw hbxs
      rw [hstep]
      refine ⟨?_, ?_, ?_⟩
      · rcases List.mem_cons.mp hmem with h | h
        · exact (by rw [h]; exact List.mem_cons_self b (a :: xs))
        · exact List.mem_cons_of_mem b (List.mem_cons_of_mem a h)
      · intro y hy
        rcases List.mem_cons.mp hy with rfl | hy
        · exact hbound y (List.mem_cons_self y xs)
        · rcases List.mem_cons.mp hy with rfl | hy
          · exact le_trans (hbound b (List.mem_cons_self b xs)) (le_of_not_lt hfa)
          · exact hbound y (List.mem_cons_of_mem b hy)
      · intro y hy heq
        rcases List.mem_cons.mp hy with rfl | hy
        · exact hfirst y (List.mem_cons_self y xs) heq
        · rcases List.mem_cons.mp hy with rfl | hy
          · have h1 : f b ≤ f y := le_of_not_lt hfa
            have h2 : f (pickMinQ f b xs) ≤ f b := hbound b (List.mem_cons_self b xs)
            have h3 : f b = f (pickMinQ f b xs) :=
              le_antisymm (heq ▸ h1) h2
            have h4 : pickMinQ f b xs ≤ b := hfirst b (List.mem_cons_self b xs) h3
            exact le_of_lt (lt_of_le_of_lt h4 hba)
          · exact hfirst y (List.mem_cons_of_mem b hy) heq

theorem argminFirst_spec (f : ℕ → ℚ) (l : List ℕ) (hpw : l.Pairwise (· < ·))
    (hne : l ≠ []) :
    argminFirst f l ∈ l ∧
    (∀ y ∈ l, f (argminFirst f l) ≤ f y) ∧
    (∀ y ∈ l, f y = f (argminFirst f l) → argminFirst f l ≤ y) := by
  cases l with
  | nil => exact absurd rfl hne
  | cons x xs =>
    have := pickMinQ_spec f xs x (List.pairwise_cons.mp hpw).2 (List.pairwise_cons.mp hpw).1
    exact this

theorem selectIdx_spec (cums : List ℚ) (hne : cums ≠ []) :
    selectIdx cums < cums.length ∧
    ((∃ j, j < cums.length ∧ inBandB (cums.getD j 0) = true) →
      inBandB (cums.getD (selectIdx cums) 0) = true ∧
      (∀ j, j < cums.length → inBandB (cums.getD j 0) = true →
        qabs (cums.getD (selectIdx cums) 0 - 80) ≤ qabs (cums.getD j 0 - 80)) ∧
      (∀ j, j < cums.length → inBandB (cums.getD j 0) = true →
        qabs (cums.getD j 0 - 80) = qabs (cums.getD (selectIdx cums) 0 - 80) →
        selectIdx cums ≤ j)) ∧
    ((∀ j, j < cums.length → ¬ inBandB (cums.getD j 0) = true) →
      (∀ j, j < cums.length →
        qabs (cums.getD (selectIdx cums) 0 - 80) ≤ qabs (cums.getD j 0 - 80)) ∧
      (∀ j, j < cums.length →
        qabs (cums.getD j 0 - 80) = qabs (cums.getD (selectIdx cums) 0 - 80) →
        selectIdx cums ≤ j)) := by
  have hmem_band : ∀ j, j ∈ (List.range cums.length).filter
      (fun j => inBandB (cums.getD j 0)) ↔ (j < cums.length ∧ inBandB (cums.getD j 0) = true) := by
    intro j
    rw [List.mem_filter, List.mem_range]
  have hpw_band : ((List.range cums.length).filter
      (fun j => inBandB (cums.getD j 0))).Pairwise (· < ·) :=
    (List.pairwise_lt_range cums.length).filter _
  have hsel : selectIdx cums =
      (if ((List.range cums.length).filter (fun j => inBandB (cums.getD j 0))).isEmpty
       then argminFirst (fun j => qabs (cums.getD j 0 - 80)) (List.range cums.length)
       else argminFirst (fun j => qabs (cums.getD j 0 - 80))
         ((List.range cums.length).filter (fun j => inBandB (cums.getD j 0)))) := rfl
  by_cases hb : ((List.range cums.length).filter (fun j => inBandB (cums.getD j 0))).isEmpty
  · rw [hsel, if_pos hb]
    have hb' : ∀ j, ¬ (j < cums.length ∧ inBandB (cums.getD j 0) = true) := by
      intro j hj
      have : j ∈ (List.range cums.length).filter (fun j => inBandB (cums.getD j 0)) :=
        (hmem_band j).mpr hj
      rw [List.isEmpty_iff.mp hb] at this
      exact absurd this (List.not_mem_nil j)
    have hrne : List.range cums.length ≠ [] := by
      intro h0
      have : cums.length = 0 := by simpa using congrArg List.length h0
      exact hne (List.length_eq_zero.mp this)
    obtain ⟨hmem, hbound, hfirst⟩ :=
      argminFirst_spec (fun j => qabs (cums.getD j 0 - 80)) (List.range cums.length)
        (List.pairwise_lt_range cums.length) hrne
    refine ⟨List.mem_range.mp hmem, ?_, ?_⟩
    · rintro ⟨j, hj, hjb⟩
      exact absurd ⟨hj, hjb⟩ (hb' j)
    · intro _
      refine ⟨?_, ?_⟩
      · intro j hj; exact hbound j (List.mem_range.mpr hj)
      · intro j hj heq; exact hfirst j (List.mem_range.mpr hj) heq
  · rw [hsel, if_neg hb]
    have hbne : (List.range cums.length).filter (fun j => inBandB (cums.getD j 0)) ≠ [] := by
      intro h0; rw [h0] at hb; exact hb rfl
    obtain ⟨hmem, hbound, hfirst⟩ :=
      argminFirst_spec (fun j => qabs (cums.getD j 0 - 80)) _ hpw_band hbne
    have hsel_mem := (hmem_band _).mp hmem
    refine ⟨hsel_mem.1, ?_, ?_⟩
    · intro _
      refine ⟨hsel_mem.2, ?_, ?_⟩
      · intro j hj hjb; exact hbound j ((hmem_band j).mpr ⟨hj, hjb⟩)
      · intro j hj hjb heq; exact hfirst j ((hmem_band j).mpr ⟨hj, hjb⟩) heq
    · intro hall
      exact absurd hsel_mem.2 (hall _ hsel_mem.1)

theorem prepSheet_ranked (df : DataTable) (k : ℕ)
    (hk : findPktIdx df.cols = some k) (ht : ¬ totalOf df k ≤ 0) :
    prepSheet df =
      (⟨df.cols, sortedRowsOf df k⟩, some (cutValOf df k), some (cutIdxOf df k)) := by
  unfold prepSheet
  rw [hk]
  dsimp only
  rw [if_neg ht]

theorem prepSheet_some_inv (df t : DataTable) (b : ℚ) (i : ℕ)
    (h : prepSheet df = (t, some b, some i)) :
    ∃ k, findPktIdx df.cols = some k ∧ 0 < totalOf df k ∧
      t = ⟨df.cols, sortedRowsOf df k⟩ ∧ b = cutValOf df k ∧ i = cutIdxOf df k := by
  unfold prepSheet at h
  cases hk : findPktIdx df.cols with
  | none =>
    rw [hk] at h
    simp only [Prod.mk.injEq] at h
    exact absurd h.2.1 (by simp)
  | some k =>
    rw [hk] at h
    dsimp only at h
    by_cases htot : totalOf df k ≤ 0
    · rw [if_pos htot] at h
      simp only [Prod.mk.injEq] at h
      exact absurd h.2.1 (by simp)
    · rw [if_neg htot] at h
      simp only [Prod.mk.injEq, Option.some.injEq] at h
      exact ⟨k, rfl, not_le.mp htot, h.1.symm, h.2.1.symm, h.2.2.symm⟩

theorem totalOf_pos_rows_ne (df : DataTable) (k : ℕ) (h : 0 < totalOf df k) :
    cumsOf df k ≠ [] := by
  intro hc
  have hlen := cumsOf_length df k
  rw [hc] at hlen
  have hrows : df.rows = [] := List.length_eq_zero.mp hlen.symm
  unfold totalOf volumesOf at h
  rw [hrows] at h
  simp at h

/-- C1: for every table with a volume column and a positive total, the
cutoff is chosen from the cumulative shares in descending-share order,
preferring indices whose cumulative value lies in the closed band [78, 90]
and, among those, one nearest to 80; when no index is in the band, a
globally nearest-to-80 index is chosen. The selected cumulative value is
rounded to two decimals. In particular, packet volumes [50, 30, 20] give
cutoff index 1 with value 80. -/
theorem claim1_pareto_cutoff :
    (∀ (df : DataTable) (k : ℕ), findPktIdx df.cols = some k → 0 < totalOf df k →
      ∃ t, prepSheet df = (t, some (cutValOf df k), some (cutIdxOf df k)) ∧
        List.Sorted descRel (pctSortedOf df k) ∧
        (pctSortedOf df k).Perm ((volumesOf df k).map (pctOf (totalOf df k))) ∧
        cumsOf df k = cumsum (pctSortedOf df k) ∧
        cutIdxOf df k < (cumsOf df k).length ∧
        cutValOf df k = pyRound2 ((cumsOf df k).getD (cutIdxOf df k) 0) ∧
        ((∃ j, j < (cumsOf df k).length ∧
            78 ≤ (cumsOf df k).getD j 0 ∧ (cumsOf df k).getD j 0 ≤ 90) →
          (78 ≤ (cumsOf df k).getD (cutIdxOf df k) 0 ∧
            (cumsOf df k).getD (cutIdxOf df k) 0 ≤ 90) ∧
          ∀ j, j < (cumsOf df k).length →
            78 ≤ (cumsOf df k).getD j 0 → (cumsOf df k).getD j 0 ≤ 90 →
            qabs ((cumsOf df k).getD (cutIdxOf df k) 0 - 80) ≤
              qabs ((cumsOf df k).getD j 0 - 80)) ∧
        ((∀ j, j < (cumsOf df k).length →
            ¬ (78 ≤ (cumsOf df k).getD j 0 ∧ (cumsOf df k).getD j 0 ≤ 90)) →
          ∀ j, j < (cumsOf df k).length →
            qabs ((cumsOf df k).getD (cutIdxOf df k) 0 - 80) ≤
              qabs ((cumsOf df k).getD j 0 - 80))) ∧
    prepSheet ⟨["Packets"], [[Value.vNum 50], [Value.vNum 30], [Value.vNum 20]]⟩ =
      (⟨["Packets"], [[Value.vNum 50], [Value.vNum 30], [Value.vNum 20]]⟩,
        some 80, some 1) := by
  constructor
  · intro df k hk htot
    obtain ⟨hlt, hband, hglobal⟩ := selectIdx_spec (cumsOf df k) (totalOf_pos_rows_ne df k htot)
    refine ⟨⟨df.cols, sortedRowsOf df k⟩,
      prepSheet_ranked df k hk (not_le.mpr htot), ?_, ?_, rfl, hlt, rfl, ?_, ?_⟩
    · exact List.sorted_insertionSort descRel _
    · exact List.perm_insertionSort descRel _
    · rintro ⟨j, hj, hj78, hj90⟩
      obtain ⟨hsel_band, hbound, -⟩ := hband ⟨j, hj, (inBandB_iff _).mpr ⟨hj78, hj90⟩⟩
      refine ⟨(inBandB_iff _).mp hsel_band, ?_⟩
      intro j2 hj2 h78 h90
      exact hbound j2 hj2 ((inBandB_iff _).mpr ⟨h78, h90⟩)
    · intro hall
      have hall' : ∀ j, j < (cumsOf df k).length → ¬ inBandB ((cumsOf df k).getD j 0) = true := by
        intro j hj hjb
        exact hall j hj ((inBandB_iff _).mp hjb)
      exact (hglobal hall').1
  · with_unfolding_all decide

/-- C1 witness: for volumes [50, 30, 20] the selected index is inside the
table and its cumulative value lies in the band [78, 90]. -/
theorem claim1_pareto_cutoff_witness :
    cutIdxOf ⟨["Packets"], [[Value.vNum 50], [Value.vNum 30], [Value.vNum 20]]⟩ 0 <
      (cumsOf ⟨["Packets"], [[Value.vNum 50], [Value.vNum 30], [Value.vNum 20]]⟩ 0).length ∧
    78 ≤ (cumsOf ⟨["Packets"], [[Value.vNum 50], [Value.vNum 30], [Value.vNum 20]]⟩ 0).getD
      (cutIdxOf ⟨["Packets"], [[Value.vNum 50], [Value.vNum 30], [Value.vNum 20]]⟩ 0) 0 ∧
    (cumsOf ⟨["Packets"], [[Value.vNum 50], [Value.vNum 30], [Value.vNum 20]]⟩ 0).getD
      (cutIdxOf ⟨["Packets"], [[Value.vNum 50], [Value.vNum 30], [Value.vNum 20]]⟩ 0) 0 ≤ 90 := by
  obtain ⟨t, hp, hsorted, hperm, hcums, hlt, hval, hband, hglobal⟩ :=
    claim1_pareto_cutoff.1 ⟨["Packets"], [[Value.vNum 50], [Value.vNum 30], [Value.vNum 20]]⟩ 0
      (by decide) (by with_unfolding_all decide)
  have hb := hband ⟨1, by with_unfolding_all decide, by with_unfolding_all decide, by with_unfolding_all decide⟩
  exact ⟨hlt, hb.1.1, hb.1.2⟩

/-- C10: when several cumulative values are equally distant from 80 (within
the band when it is inhabited, or globally otherwise), the selected cutoff
index is the smallest tied row index. -/
theorem claim10_tie_smallest_index (df : DataTable) (k : ℕ) (t : DataTable) (b : ℚ) (i : ℕ)
    (hk : findPktIdx df.cols = some k) (hp : prepSheet df = (t, some b, some i)) :
    ((∃ j, j < (cumsOf df k).length ∧
        78 ≤ (cumsOf df k).getD j 0 ∧ (cumsOf df k).getD j 0 ≤ 90) →
      ∀ j, j < (cumsOf df k).length →
        78 ≤ (cumsOf df k).getD j 0 → (cumsOf df k).getD j 0 ≤ 90 →
        qabs ((cumsOf df k).getD j 0 - 80) = qabs ((cumsOf df k).getD i 0 - 80) →
        i ≤ j) ∧
    ((∀ j, j < (cumsOf df k).length →
        ¬ (78 ≤ (cumsOf df k).getD j 0 ∧ (cumsOf df k).getD j 0 ≤ 90)) →
      ∀ j, j < (cumsOf df k).length →
        qabs ((cumsOf df k).getD j 0 - 80) = qabs ((cumsOf df k).getD i 0 - 80) →
        i ≤ j) := by
  obtain ⟨k2, hk2, htot, -, -, hi⟩ := prepSheet_some_inv df t b i hp
  have hkk : k2 = k := Option.some.inj (hk2 ▸ hk ▸ rfl)
  subst hkk
  subst hi
  obtain ⟨hlt, hband, hglobal⟩ := selectIdx_spec (cumsOf df k2) (totalOf_pos_rows_ne df k2 htot)
  constructor
  · rintro ⟨j0, hj0, h78, h90⟩
    obtain ⟨-, -, hfirst⟩ := hband ⟨j0, hj0, (inBandB_iff _).mpr ⟨h78, h90⟩⟩
    intro j hj hj78 hj90 heq
    exact hfirst j hj ((inBandB_iff _).mpr ⟨hj78, hj90⟩) heq
  · intro hall
    have hall' : ∀ j, j < (cumsOf df k2).length →
        ¬ inBandB ((cumsOf df k2).getD j 0) = true := by
      intro j hj hjb
      exact hall j hj ((inBandB_iff _).mp hjb)
    intro j hj heq
    exact (hglobal hall').2 j hj heq

/-- C10 witness: for volumes [70, 8, 4, 4, 4, 4, 4, 2] the cumulative values
78 (index 1) and 82 (index 2) are equally distant from 80; the chosen index
is 1, the smaller. -/
theorem claim10_tie_smallest_index_witness :
    prepSheet ⟨["Packets"], [[Value.vNum 70], [Value.vNum 8], [Value.vNum 4], [Value.vNum 4],
        [Value.vNum 4], [Value.vNum 4], [Value.vNum 4], [Value.vNum 2]]⟩ =
      (⟨["Packets"], [[Value.vNum 70], [Value.vNum 8], [Value.vNum 4], [Value.vNum 4],
        [Value.vNum 4], [Value.vNum 4], [Value.vNum 4], [Value.vNum 2]]⟩, some 78, some 1) ∧
    (1 : ℕ) ≤ 2 := by
  constructor
  · with_unfolding_all decide
  · refine (claim10_tie_smallest_index
      ⟨["Packets"], [[Value.vNum 70], [Value.vNum 8], [Value.vNum 4], [Value.vNum 4],
        [Value.vNum 4], [Value.vNum 4], [Value.vNum 4], [Value.vNum 2]]⟩ 0
      ⟨["Packets"], [[Value.vNum 70], [Value.vNum 8], [Value.vNum 4], [Value.vNum 4],
        [Value.vNum 4], [Value.vNum 4], [Value.vNum 4], [Value.vNum 2]]⟩ 78 1
      (by decide) (by with_unfolding_all decide)).1 ⟨1, by with_unfolding_all decide, by with_unfolding_all decide, by with_unfolding_all decide⟩ 2
      (by with_unfolding_all decide) (by with_unfolding_all decide) (by with_unfolding_all decide) (by with_unfolding_all decide)

theorem range_map_getD {α : Type} (n : ℕ) (f : ℕ → Option α) (j : ℕ) :
    ((List.range n).map f).getD j none = if j < n then f j else none := by
  rw [List.getD_eq_getElem?_getD, List.getElem?_map]
  by_cases hj : j < n
  · rw [List.getElem?_range hj, if_pos hj]
    rfl
  · rw [List.getElem?_eq_none (by simpa using hj), if_neg hj]
    rfl

/-- C3 (amended): for every ranked table, the derived-column directives
carry the literal headers "Total Packets",
"Total Packets in 100% (B/D *100)" and "Top 20 %"; the cutoff cumulative
value appears only at data row 0 of the "Top 20 %" column, and the row at
the cutoff index is the one flagged for highlighting. -/
theorem claim3_directives (df t : DataTable) (b : ℚ) (i : ℕ)
    (hp : prepSheet df = (t, some b, some i)) :
    ∃ d, augmentSheet t (some b) (some i) = some d ∧
      d.totalHeader = "Total Packets" ∧
      d.pctHeader = "Total Packets in 100% (B/D *100)" ∧
      d.top20Header = "Top 20 %" ∧
      d.top20Cells.length = t.rows.length ∧
      (t.rows ≠ [] → d.top20Cells.getD 0 none = some b) ∧
      (∀ j, j ≠ 0 → d.top20Cells.getD j none = none) ∧
      d.highlightDataIdx = some i := by
  obtain ⟨k, hk, htot, ht, hb, hi⟩ := prepSheet_some_inv df t b i hp
  have hkt : findPktIdx t.cols = some k := by rw [ht]; exact hk
  unfold augmentSheet
  rw [hkt]
  dsimp only
  refine ⟨_, rfl, rfl, rfl, rfl, ?_, ?_, ?_, rfl⟩
  · rw [List.length_map, List.length_range]
  · intro hne
    rw [range_map_getD]
    have : 0 < t.rows.length := List.length_pos.mpr hne
    rw [if_pos this, if_pos rfl]
  · intro j hj
    rw [range_map_getD]
    by_cases hlt : j < t.rows.length
    · rw [if_pos hlt, if_neg hj]
    · rw [if_neg hlt]

/-- C3 counterexample: on the ranked table with rows (A, 80), (B, 20), the
emitted share-column header is the literal
"Total Packets in 100% (B/D *100)", not "Packets% of total", and the marker
header is "Top 20 %", not "Top 20%"; so the headers named by the claim are
not the ones the code writes. -/
theorem claim3_counterexample :
    prepSheet ⟨["Address", "Packets"],
        [[Value.vStr "A", Value.vNum 80], [Value.vStr "B", Value.vNum 20]]⟩ =
      (⟨["Address", "Packets"],
        [[Value.vStr "A", Value.vNum 80], [Value.vStr "B", Value.vNum 20]]⟩,
        some 80, some 0) ∧
    augmentSheet ⟨["Address", "Packets"],
        [[Value.vStr "A", Value.vNum 80], [Value.vStr "B", Value.vNum 20]]⟩
        (some 80) (some 0) =
      some { totalHeader := "Total Packets"
             pctHeader := "Total Packets in 100% (B/D *100)"
             top20Header := "Top 20 %"
             totalFormula := "=SUM($B$2:$B$3)"
             pctFormulas := ["=(B2/C2)*100", "=(B3/C3)*100"]
             top20Cells := [some 80, none]
             highlightDataIdx := some 0 } ∧
    ("Total Packets in 100% (B/D *100)" : String) ≠ "Packets% of total" ∧
    ("Top 20 %" : String) ≠ "Top 20%" := by
  refine ⟨by with_unfolding_all decide, by with_unfolding_all decide, by decide, by decide⟩

/-- C3 witness: the amended statement applied to the concrete ranked table
with rows (A, 80), (B, 20). -/
theorem claim3_directives_witness :
    ∃ d, augmentSheet ⟨["Address", "Packets"],
        [[Value.vStr "A", Value.vNum 80], [Value.vStr "B", Value.vNum 20]]⟩
        (some 80) (some 0) = some d ∧
      d.totalHeader = "Total Packets" ∧
      d.pctHeader = "Total Packets in 100% (B/D *100)" ∧
      d.top20Header = "Top 20 %" ∧
      d.top20Cells.length = (⟨["Address", "Packets"],
        [[Value.vStr "A", Value.vNum 80], [Value.vStr "B", Value.vNum 20]]⟩ : DataTable).rows.length ∧
      ((⟨["Address", "Packets"],
        [[Value.vStr "A", Value.vNum 80], [Value.vStr "B", Value.vNum 20]]⟩ : DataTable).rows ≠ [] →
        d.top20Cells.getD 0 none = some 80) ∧
      (∀ j, j ≠ 0 → d.top20Cells.getD j none = none) ∧
      d.highlightDataIdx = some 0 :=
  claim3_directives
    ⟨["Address", "Packets"], [[Value.vStr "A", Value.vNum 80], [Value.vStr "B", Value.vNum 20]]⟩
    ⟨["Address", "Packets"], [[Value.vStr "A", Value.vNum 80], [Value.vStr "B", Value.vNum 20]]⟩
    80 0 (by with_unfolding_all decide)

theorem enumFrom_mem {α : Type} (d : α) :
    ∀ (l : List α) (n : ℕ) (p : ℕ × α), p ∈ enumFrom n l →
      n ≤ p.1 ∧ p.1 - n < l.length ∧ l.getD (p.1 - n) d = p.2 := by
  intro l
  induction l with
  | nil => intro n p hp; exact absurd hp (List.not_mem_nil p)
  | cons a as ih =>
    intro n p hp
    rcases List.mem_cons.mp hp with rfl | hp
    · refine ⟨le_refl n, ?_, ?_⟩
      · simp
      · simp
    · obtain ⟨h1, h2, h3⟩ := ih (n + 1) p hp
      have hn : n ≤ p.1 := le_trans (Nat.le_succ n) h1
      have hsub : p.1 - n = (p.1 - (n + 1)) + 1 := by omega
      refine ⟨hn, ?_, ?_⟩
      · simp only [List.length_cons]; omega
      · rw [hsub, List.getD_cons_succ]; exact h3

theorem enumFrom_map_snd {α : Type} :
    ∀ (l : List α) (n : ℕ), (enumFrom n l).map Prod.snd = l := by
  intro l
  induction l with
  | nil => intro n; rfl
  | cons a as ih => intro n; simp [enumFrom, ih]

theorem enumFrom_fst_pairwise {α : Type} :
    ∀ (l : List α) (n : ℕ), (enumFrom n l).Pairwise (fun p q => p.1 < q.1) := by
  intro l
  induction l with
  | nil => intro n; exact List.Pairwise.nil
  | cons a as ih =>
    intro n
    refine List.pairwise_cons.mpr ⟨?_, ih (n + 1)⟩
    intro q hq
    have := (enumFrom_mem a as (n + 1) q hq).1
    simpa using lt_of_lt_of_le (Nat.lt_succ_self n) this

theorem rankItems_map_snd (df : DataTable) (k : ℕ) :
    (rankItems df k).map (fun p => p.2.2) = df.rows := by
  unfold rankItems
  rw [List.map_map]
  exact enumFrom_map_snd df.rows 0

theorem rankItems_mem (df : DataTable) (k : ℕ) (q : RItem) (hq : q ∈ rankItems df k) :
    q.1 < df.rows.length ∧ df.rows.getD q.1 [] = q.2.2 ∧
      q.2.1 = pctOf (totalOf df k) (volAt k q.2.2) := by
  unfold rankItems at hq
  obtain ⟨p, hp, rfl⟩ := List.mem_map.mp hq
  obtain ⟨-, h2, h3⟩ := enumFrom_mem ([] : List Value) df.rows 0 p hp
  simp only [Nat.sub_zero] at h2 h3
  exact ⟨h2, h3, rfl⟩

theorem rankItems_fst_pairwise (df : DataTable) (k : ℕ) :
    (rankItems df k).Pairwise (fun p q => p.1 < q.1) := by
  unfold rankItems
  rw [List.pairwise_map]
  exact enumFrom_fst_pairwise df.rows 0

theorem pctOf_lt_iff (t : ℚ) (ht : 0 < t) (a b : ℚ) :
    pctOf t a < pctOf t b ↔ a < b := by
  have h : ∀ v : ℚ, pctOf t v = v * (100 / t) := by
    intro v; unfold pctOf; ring
  rw [h, h, mul_lt_mul_right (by positivity)]

theorem pctOf_inj (t : ℚ) (ht : 0 < t) (a b : ℚ)
    (h : pctOf t a = pctOf t b) : a = b := by
  have hc : (100 / t : ℚ) ≠ 0 := by positivity
  have h2 : ∀ v : ℚ, pctOf t v = v * (100 / t) := by
    intro v; unfold pctOf; ring
  rw [h2, h2] at h
  exact mul_right_cancel₀ hc h

/-- C4: for every ranked table the rows are reordered by a stable descending
sort on the per-row share: the sorted decorated rows are a permutation of
the index-decorated originals, each sorted entry carries its original row,
and along the sorted order the volumes strictly decrease or, on equal
volumes, the original row indices strictly increase — so equal-volume rows
keep their original relative order. -/
theorem claim4_stable_sort (df : DataTable) (k : ℕ) (t : DataTable) (b : ℚ) (i : ℕ)
    (hk : findPktIdx df.cols = some k) (hp : prepSheet df = (t, some b, some i)) :
    t.rows = (sortedItems df k).map (fun p => p.2.2) ∧
    (sortedItems df k).Perm (rankItems df k) ∧
    (rankItems df k).map (fun p => p.2.2) = df.rows ∧
    (∀ p ∈ sortedItems df k, p.1 < df.rows.length ∧ df.rows.getD p.1 [] = p.2.2) ∧
    (sortedItems df k).Pairwise (fun p q =>
      volAt k q.2.2 < volAt k p.2.2 ∨ (volAt k p.2.2 = volAt k q.2.2 ∧ p.1 < q.1)) := by
  obtain ⟨k2, hk2, htot, ht, -, -⟩ := prepSheet_some_inv df t b i hp
  have hkk : k2 = k := Option.some.inj (hk2 ▸ hk ▸ rfl)
  subst hkk
  have hperm : (sortedItems df k2).Perm (rankItems df k2) :=
    List.perm_insertionSort itemRel (rankItems df k2)
  have hmem : ∀ p ∈ sortedItems df k2, p.1 < df.rows.length ∧
      df.rows.getD p.1 [] = p.2.2 ∧ p.2.1 = pctOf (totalOf df k2) (volAt k2 p.2.2) := by
    intro p hp2
    exact rankItems_mem df k2 p (hperm.mem_iff.mp hp2)
  refine ⟨?_, hperm, rankItems_map_snd df k2, ?_, ?_⟩
  · rw [ht]; rfl
  · intro p hp2
    exact ⟨(hmem p hp2).1, (hmem p hp2).2.1⟩
  · have hsorted : (sortedItems df k2).Pairwise itemRel :=
      List.sorted_insertionSort itemRel (rankItems df k2)
    have hne : (sortedItems df k2).Pairwise (fun p q => p.1 ≠ q.1) := by
      have h1 : (rankItems df k2).Pairwise (fun p q => p.1 ≠ q.1) :=
        (rankItems_fst_pairwise df k2).imp (fun h => Nat.ne_of_lt h)
      exact (List.Perm.pairwise_iff (fun h => h.symm) hperm).mpr h1
    refine (hsorted.and hne).imp_of_mem ?_
    intro p q hpmem hqmem hpq
    obtain ⟨hrel, hne_pq⟩ := hpq
    have hpfact := (hmem p hpmem).2.2
    have hqfact := (hmem q hqmem).2.2
    rcases hrel with hlt | ⟨heq, hle⟩
    · left
      rw [hpfact, hqfact] at hlt
      exact (pctOf_lt_iff (totalOf df k2) htot _ _).mp hlt
    · right
      rw [hpfact, hqfact] at heq
      exact ⟨pctOf_inj (totalOf df k2) htot _ _ heq, lt_of_le_of_ne hle hne_pq⟩

/-- C4 witness: two rows with the identical volume 5 keep their original
order after the ranking sort. -/
theorem claim4_stable_sort_witness :
    (⟨["Packets"], [[Value.vNum 5], [Value.vNum 5]]⟩ : DataTable).rows =
      (sortedItems ⟨["Packets"], [[Value.vNum 5], [Value.vNum 5]]⟩ 0).map (fun p => p.2.2) ∧
    (sortedItems ⟨["Packets"], [[Value.vNum 5], [Value.vNum 5]]⟩ 0).Pairwise (fun p q =>
      volAt 0 q.2.2 < volAt 0 p.2.2 ∨ (volAt 0 p.2.2 = volAt 0 q.2.2 ∧ p.1 < q.1)) := by
  obtain ⟨h1, -, -, -, h5⟩ := claim4_stable_sort
    ⟨["Packets"], [[Value.vNum 5], [Value.vNum 5]]⟩ 0
    ⟨["Packets"], [[Value.vNum 5], [Value.vNum 5]]⟩ 100 1
    (by decide) (by with_unfolding_all decide)
  exact ⟨h1, h5⟩

theorem splitCSVAux_ne_nil (d : Char) :
    ∀ (f : ℕ) (inQ : Bool) (cur cs : List Char), splitCSVAux d f inQ cur cs ≠ [] := by
  intro f
  induction f with
  | zero =>
    intro inQ cur cs
    cases cs with
    | nil => simp [splitCSVAux]
    | cons c rest => simp [splitCSVAux]
  | succ f ih =>
    intro inQ cur cs
    cases cs with
    | nil => simp [splitCSVAux]
    | cons c rest =>
      simp only [splitCSVAux]
      repeat' split
      all_goals first
        | exact List.cons_ne_nil _ _
        | exact ih _ _ _

theorem splitCSVLine_ne_nil (d : Char) (s : String) : splitCSVLine d s ≠ [] := by
  unfold splitCSVLine
  intro h
  exact splitCSVAux_ne_nil d s.data.length false [] s.data (List.map_eq_nil_iff.mp h)

theorem processHeader_ne_nil (raw : List String) (h : raw ≠ []) :
    processHeader raw ≠ [] := by
  cases raw with
  | nil => exact absurd rfl h
  | cons h0 hs => exact List.cons_ne_nil _ _

theorem processRow_length (hdr row : List String) :
    (processRow hdr row).length = hdr.length := by
  unfold processRow
  dsimp only
  by_cases h1 : row.length < hdr.length
  · rw [if_pos h1]
    simp only [List.length_map, List.length_append, List.length_replicate]
    omega
  · rw [if_neg h1]
    by_cases h2 : hdr.length < row.length
    · rw [if_pos h2]
      simp only [List.length_map, List.length_take]
      omega
    · rw [if_neg h2]
      simp only [List.length_map]
      omega

theorem processRow_pad (hdr raw : List String) (h : raw.length ≤ hdr.length) :
    processRow hdr raw = (raw ++ List.replicate (hdr.length - raw.length) "").map pyStrip := by
  unfold processRow
  dsimp only
  by_cases h1 : raw.length < hdr.length
  · rw [if_pos h1]
  · have heq : raw.length = hdr.length := le_antisymm h (le_of_not_lt h1)
    rw [if_neg h1, if_neg (by omega)]
    rw [heq, Nat.sub_self, List.replicate_zero, List.append_nil]

theorem processRow_trunc (hdr raw : List String) (h : hdr.length < raw.length) :
    processRow hdr raw = (raw.take hdr.length).map pyStrip := by
  unfold processRow
  dsimp only
  rw [if_neg (by omega), if_pos h]

theorem csvParse_of_nil (sniff : String → Option Char) (lines : List String)
    (h : nonemptyOf lines = []) : csvParse sniff lines = ([], [], ',') := by
  unfold csvParse
  rw [h]
  rfl

theorem csvParse_cons (sniff : String → Option Char) (lines : List String)
    (n0 : String) (ntl : List String) (h : nonemptyOf lines = n0 :: ntl) :
    csvParse sniff lines =
      (processHeader (splitCSVLine (chooseDelim sniff lines) n0),
       (ntl.map (splitCSVLine (chooseDelim sniff lines))).map
         (processRow (processHeader (splitCSVLine (chooseDelim sniff lines) n0))),
       chooseDelim sniff lines) := by
  unfold csvParse
  rw [h]
  simp only [List.isEmpty_cons, List.map_cons]
  rfl

theorem csvParse_rows_len (sniff : String → Option Char) (lines : List String) :
    ∀ r ∈ (csvParse sniff lines).2.1, r.length = (csvParse sniff lines).1.length := by
  intro r hr
  cases hne : nonemptyOf lines with
  | nil =>
    rw [csvParse_of_nil sniff lines hne] at hr
    exact absurd hr (List.not_mem_nil r)
  | cons n0 ntl =>
    rw [csvParse_cons sniff lines n0 ntl hne] at hr ⊢
    obtain ⟨raw, -, rfl⟩ := List.mem_map.mp hr
    exact processRow_length _ raw

theorem csvParse_header_ne (sniff : String → Option Char) (lines : List String)
    (h : nonemptyOf lines ≠ []) : (csvParse sniff lines).1 ≠ [] := by
  cases hne : nonemptyOf lines with
  | nil => exact absurd hne h
  | cons n0 ntl =>
    rw [csvParse_cons sniff lines n0 ntl hne]
    exact processHeader_ne_nil _ (splitCSVLine_ne_nil _ n0)

theorem dropWhile_append_all {α : Type} (p : α → Bool) :
    ∀ (l1 l2 : List α), (∀ a ∈ l1, p a = true) →
      (l1 ++ l2).dropWhile p = l2.dropWhile p := by
  intro l1
  induction l1 with
  | nil => intro l2 _; rfl
  | cons a l1 ih =>
    intro l2 h
    rw [List.cons_append, List.dropWhile_cons,
      if_pos (h a (List.mem_cons_self a l1))]
    exact ih l2 (fun b hb => h b (List.mem_cons_of_mem a hb))

theorem dropWhile_append_pos {α : Type} (p : α → Bool) :
    ∀ (l1 l2 : List α), l1.dropWhile p ≠ [] →
      (l1 ++ l2).dropWhile p = l1.dropWhile p ++ l2 := by
  intro l1
  induction l1 with
  | nil => intro l2 h; exact absurd rfl h
  | cons a l1 ih =>
    intro l2 h
    cases hpa : p a with
    | true =>
      rw [List.dropWhile_cons, if_pos hpa] at h ⊢
      rw [List.cons_append, List.dropWhile_cons, if_pos hpa]
      exact ih l2 h
    | false =>
      rw [List.dropWhile_cons, if_neg (by simp [hpa])] at h ⊢
      rw [List.cons_append, List.dropWhile_cons, if_neg (by simp [hpa])]

theorem rtrimBy_append_all (p : Char → Bool) (l s : List Char)
    (h : ∀ c ∈ s, p c = true) : rtrimBy p (l ++ s) = rtrimBy p l := by
  unfold rtrimBy
  rw [List.reverse_append, dropWhile_append_all p s.reverse l.reverse
    (fun c hc => h c (List.mem_reverse.mp hc))]

theorem rtrimBy_decomp (p : Char → Bool) (l : List Char) :
    ∃ s, l = rtrimBy p l ++ s ∧ ∀ c ∈ s, p c = true := by
  refine ⟨(l.reverse.takeWhile p).reverse, ?_, ?_⟩
  · unfold rtrimBy
    conv_lhs => rw [← List.reverse_reverse l,
      ← List.takeWhile_append_dropWhile (p := p) (l := l.reverse)]
    rw [List.reverse_append]
  · intro c hc
    exact List.mem_takeWhile_imp (List.mem_reverse.mp hc)

theorem ltrimBy_decomp (p : Char → Bool) (l : List Char) :
    ∃ s, l = s ++ ltrimBy p l ∧ ∀ c ∈ s, p c = true := by
  refine ⟨l.takeWhile p, ?_, ?_⟩
  · unfold ltrimBy
    rw [List.takeWhile_append_dropWhile]
  · intro c hc
    exact List.mem_takeWhile_imp hc

theorem isRN_isPySpace (c : Char) (h : isRN c = true) : isPySpace c = true := by
  unfold isRN at h
  rcases Bool.or_eq_true_iff.mp h with h | h
  · unfold isPySpace
    simp only [decide_eq_true_eq] at h
    subst h
    decide
  · unfold isPySpace
    simp only [decide_eq_true_eq] at h
    subst h
    decide

theorem pyStripL_rtrimRN (l : List Char) :
    pyStripL (rtrimBy isRN l) = pyStripL l := by
  obtain ⟨s, hdecomp, hall⟩ := rtrimBy_decomp isRN l
  have h2 : rtrimBy isPySpace l = rtrimBy isPySpace (rtrimBy isRN l) := by
    conv_lhs => rw [hdecomp]
    exact rtrimBy_append_all isPySpace (rtrimBy isRN l) s
      (fun c hc => isRN_isPySpace c (hall c hc))
  unfold pyStripL
  rw [h2]

theorem pyStripL_space_left (s m : List Char)
    (h : ∀ c ∈ s, isPySpace c = true) : pyStripL (s ++ m) = pyStripL m := by
  by_cases hm : m.reverse.dropWhile isPySpace = []
  · have hma : ∀ c ∈ m, isPySpace c = true := by
      intro c hc
      exact List.dropWhile_eq_nil_iff.mp hm c (List.mem_reverse.mpr hc)
    have h1 : rtrimBy isPySpace (s ++ m) = rtrimBy isPySpace s :=
      rtrimBy_append_all isPySpace s m hma
    have h2 : ∀ c ∈ rtrimBy isPySpace s, isPySpace c = true := by
      intro c hc
      unfold rtrimBy at hc
      exact h c (List.mem_reverse.mp ((List.dropWhile_sublist _).subset
        (List.mem_reverse.mp hc)))
    unfold pyStripL ltrimBy
    rw [h1]
    rw [List.dropWhile_eq_nil_iff.mpr h2]
    have h3 : rtrimBy isPySpace m = [] := by
      unfold rtrimBy
      rw [hm]
      rfl
    rw [h3]
    rfl
  · have h1 : rtrimBy isPySpace (s ++ m) = s ++ rtrimBy isPySpace m := by
      unfold rtrimBy
      rw [List.reverse_append, dropWhile_append_pos isPySpace m.reverse s.reverse hm,
        List.reverse_append, List.reverse_reverse]
    unfold pyStripL
    rw [h1]
    exact dropWhile_append_all isPySpace s (rtrimBy isPySpace m) h

theorem pyStripL_ltrimRN_rtrimRN (l : List Char) :
    pyStripL (ltrimBy isRN (rtrimBy isRN l)) = pyStripL l := by
  obtain ⟨s, hdecomp, hall⟩ := ltrimBy_decomp isRN (rtrimBy isRN l)
  have h1 : pyStripL (rtrimBy isRN l) = pyStripL (ltrimBy isRN (rtrimBy isRN l)) := by
    conv_lhs => rw [hdecomp]
    exact pyStripL_space_left s _ (fun c hc => isRN_isPySpace c (hall c hc))
  rw [← h1, pyStripL_rtrimRN]

theorem isBlank_rstripRN (x : String) : isBlank (rstripRN x) = isBlank x := by
  unfold isBlank pyStrip rstripRN
  rw [pyStripL_rtrimRN x.data]

theorem pyNormalize_rstripRN (x : String) : pyNormalize (rstripRN x) = pyNormalize x := by
  unfold pyNormalize rstripRN
  rw [pyStripL_rtrimRN x.data]

theorem pyNormalize_stripRN (x : String) : pyNormalize (stripRN x) = pyNormalize x := by
  unfold pyNormalize stripRN
  rw [pyStripL_ltrimRN_rtrimRN x.data]

theorem filter_dropWhile_blank (l : List String) :
    (l.dropWhile (fun ln => isBlank ln)).filter (fun ln => !(isBlank ln)) =
      l.filter (fun ln => !(isBlank ln)) := by
  induction l with
  | nil => rfl
  | cons a l ih =>
    cases hba : isBlank a with
    | true =>
      rw [List.dropWhile_cons, if_pos hba, ih, List.filter_cons,
        if_neg (by simp [hba])]
    | false =>
      rw [List.dropWhile_cons, if_neg (by simp [hba])]

theorem filter_map_rstrip (lines : List String) :
    (lines.map rstripRN).filter (fun ln => !(isBlank ln)) =
      (lines.filter (fun ln => !(isBlank ln))).map rstripRN := by
  rw [List.filter_map]
  congr 1
  apply List.filter_congr
  intro x _
  simp [Function.comp, isBlank_rstripRN]

theorem map_eq_singleton {α β : Type} (f : α → β) (l : List α) (y : β)
    (h : l.map f = [y]) : ∃ x, l = [x] ∧ f x = y := by
  cases l with
  | nil => exact absurd h (by simp)
  | cons a as =>
    rw [List.map_cons] at h
    injection h with h1 h2
    exact ⟨a, by rw [List.map_eq_nil_iff.mp h2], h1⟩

theorem dropWhile_cons_head {α : Type} (p : α → Bool) :
    ∀ (l : List α) (a : α) (t : List α), l.dropWhile p = a :: t → p a = false := by
  intro l
  induction l with
  | nil => intro a t h; exact absurd h (by simp)
  | cons b l ih =>
    intro a t h
    cases hpb : p b with
    | true =>
      rw [List.dropWhile_cons, if_pos hpb] at h
      exact ih a t h
    | false =>
      rw [List.dropWhile_cons, if_neg (by simp [hpb])] at h
      injection h with h1 _
      rw [← h1]
      exact hpb

theorem nonemptyOf_eq_nil_cases (lines : List String) (h : nonemptyOf lines = []) :
    lines.filter (fun ln => !(isBlank ln)) = [] ∨
    ∃ x, lines.filter (fun ln => !(isBlank ln)) = [x] ∧
      decide (pyNormalize (stripRN x) ∈ protoNames) = true := by
  unfold nonemptyOf maybeDropProtoLabel at h
  cases hD : (lines.map rstripRN).dropWhile (fun ln => isBlank ln) with
  | nil =>
    left
    have hmap : (lines.map rstripRN).filter (fun ln => !(isBlank ln)) = [] := by
      rw [← filter_dropWhile_blank, hD]
      rfl
    rw [filter_map_rstrip] at hmap
    exact List.map_eq_nil_iff.mp hmap
  | cons y rest =>
    rw [hD] at h
    dsimp only at h
    have hy_nb : isBlank y = false := dropWhile_cons_head _ _ y rest hD
    by_cases hcond : (decide (pyNormalize y ∈ protoNames) && !(y.data.contains ',')
        && !(y.data.contains '\t')) = true
    · rw [if_pos hcond] at h
      right
      have hfy : (lines.map rstripRN).filter (fun ln => !(isBlank ln)) = [y] := by
        rw [← filter_dropWhile_blank, hD, List.filter_cons, if_pos (by simp [hy_nb]), h]
      rw [filter_map_rstrip] at hfy
      obtain ⟨x, hx, hxy⟩ := map_eq_singleton rstripRN _ y hfy
      refine ⟨x, hx, ?_⟩
      have hmem : pyNormalize y ∈ protoNames := by
        have h1 := (Bool.and_eq_true_iff.mp (Bool.and_eq_true_iff.mp hcond).1).1
        exact of_decide_eq_true h1
      have heqn : pyNormalize (stripRN x) = pyNormalize y := by
        rw [pyNormalize_stripRN, ← pyNormalize_rstripRN, hxy]
      rw [heqn]
      exact decide_eq_true hmem
    · rw [if_neg hcond] at h
      rw [List.filter_cons, if_pos (by simp [hy_nb])] at h
      exact absurd h (List.cons_ne_nil _ _)

theorem detect_no_header_of_nonempty_nil (sniff : String → Option Char)
    (lines : List String) (h : nonemptyOf lines = []) (hd : List String)
    (rows : List (List String)) :
    detectHeaderAndRows sniff lines ≠ some (some hd, rows) := by
  unfold detectHeaderAndRows
  rw [csvParse_of_nil sniff lines h]
  dsimp only
  rcases nonemptyOf_eq_nil_cases lines h with hF | ⟨x, hF, hx⟩
  · rw [hF]
    intro hcontra
    injection hcontra with hcontra
    injection hcontra with hcontra _
    exact Option.noConfusion hcontra
  · rw [hF]
    simp only [List.map_cons, List.map_nil]
    rw [hx]
    simp

/-- C2: every row of an extracted table has exactly as many fields as the
header, whatever parsing strategy produced it (quantified over all inputs
and all sniffing outcomes, so both the structured CSV parse and the
fallback tokenizer are covered); rows shorter than the header are padded
with empty strings and longer rows are truncated. -/
theorem claim2_field_count_invariant :
    (∀ (sniff : String → Option Char) (lines : List String) (hd : List String)
        (rows : List (List String)),
      detectHeaderAndRows sniff lines = some (some hd, rows) →
      ∀ r ∈ rows, r.length = hd.length) ∧
    (∀ hdr raw, raw.length ≤ hdr.length →
      processRow hdr raw = (raw ++ List.replicate (hdr.length - raw.length) "").map pyStrip) ∧
    (∀ hdr raw, hdr.length < raw.length →
      processRow hdr raw = (raw.take hdr.length).map pyStrip) := by
  refine ⟨?_, processRow_pad, processRow_trunc⟩
  intro sniff lines hd rows h r hr
  by_cases hne : nonemptyOf lines = []
  · exact absurd h (detect_no_header_of_nonempty_nil sniff lines hne hd rows)
  · have hhd : (csvParse sniff lines).1 ≠ [] := csvParse_header_ne sniff lines hne
    unfold detectHeaderAndRows at h
    rw [if_neg (by simpa using hhd)] at h
    injection h with h
    injection h with h1 h2
    injection h1 with h1
    subst h1
    subst h2
    exact csvParse_rows_len sniff lines r hr

/-- C2 witness: for the comma-separated input with header of two fields, a
three-field row is truncated and a one-field row is padded with an empty
string, both reaching exactly two fields. -/
theorem claim2_field_count_invariant_witness :
    detectHeaderAndRows (fun _ => none) ["Address,Packets", "a,1,extra", "b"] =
      some (some ["Address", "Packets"], [["a", "1"], ["b", ""]]) ∧
    (∀ r ∈ [["a", "1"], ["b", ""]], r.length = (["Address", "Packets"] : List String).length) := by
  constructor
  · decide
  · exact claim2_field_count_invariant.1 (fun _ => none)
      ["Address,Packets", "a,1,extra", "b"] ["Address", "Packets"]
      [["a", "1"], ["b", ""]] (by decide)

end NetworkConvert
